import Mathlib

/-!
Verification development for the redline comparison engine
(`redline_pdf_diff.py`).

Texts are modelled as `List Char`.  Python library routines that the
source relies on (`difflib.SequenceMatcher`) are embedded faithfully from
their algorithm; machine floats are modelled as rationals.
-/

set_option maxHeartbeats 4000000
set_option maxRecDepth 100000

/-- Python `\s` / `str.strip()` whitespace, restricted to the code points
that can occur in this pipeline (ASCII whitespace plus NEL and NBSP). -/
def pySpace (c : Char) : Bool :=
  c = ' ' || c = '\t' || c = '\n' || c = '\x0d' || c = '\x0b' || c = '\x0c' ||
  c = '\x85' || c = '\xa0'

/-- Python `\d` (ASCII range, which is what the normalized pipeline text
contains). -/
def pyDigit (c : Char) : Bool := c.isDigit

/-- Python `\w`: alphanumeric or underscore. -/
def pyWord (c : Char) : Bool := c.isAlphanum || c = '_'

/-- A character of `str.isalnum()` class. -/
def pyAlnum (c : Char) : Bool := c.isAlphanum

/-- `s.strip()` : drop whitespace from both ends. -/
def pyStrip (s : List Char) : List Char :=
  ((s.dropWhile pySpace).reverse.dropWhile pySpace).reverse

/-- `s.strip("\n")` : drop newlines from both ends. -/
def stripNl (s : List Char) : List Char :=
  ((s.dropWhile (· = '\n')).reverse.dropWhile (· = '\n')).reverse

/-- `text.split("\n")` (Python semantics: always one more part than
separators; `"".split("\n") = [""]`). -/
def splitLines : List Char → List (List Char)
  | [] => [[]]
  | c :: rest =>
    if c = '\n' then [] :: splitLines rest
    else match splitLines rest with
      | [] => [[c]]
      | l :: ls => (c :: l) :: ls

/-- `"\n".join(lines)`. -/
def joinLines : List (List Char) → List Char
  | [] => []
  | [l] => l
  | l :: ls => l ++ '\n' :: joinLines ls

/-- All characters that are not whitespace, in order. -/
def noWs (s : List Char) : List Char := s.filter (fun c => !pySpace c)

/-- The sublist of `l` from position `i` (inclusive) to position `k`
(exclusive), truncated at the end of the list. -/
def seg (l : List α) (i k : Nat) : List α := (l.drop i).take (k - i)

/-- Positionwise agreement of `a` starting at `i` with `b` starting at
`j`, for `n` positions. -/
def sliceEq (a b : List α) (i j n : Nat) : Prop :=
  ∀ m, m < n → a[i + m]? = b[j + m]?

/-- Python `enumerate` starting at `i`. -/
def enumF : Nat → List β → List (Nat × β)
  | _, [] => []
  | i, x :: xs => (i, x) :: enumF (i + 1) xs

/-!  ## difflib.SequenceMatcher

Faithful embedding of CPython `difflib.SequenceMatcher` for a junk-free
or autojunk `b`-side, as used by the source:

* `align_paragraphs` and `diff_tokens_to_html` construct
  `SequenceMatcher(None, a, b, autojunk=False)`;
* `paragraph_similarity` constructs `SequenceMatcher(None, a, b)`
  (autojunk on) and takes `.ratio()`.
-/

/-- One matching block `(besti, bestj, size)`. -/
structure MB where
  bi : Nat
  bj : Nat
  sz : Nat
deriving DecidableEq, Repr

variable {α : Type} [DecidableEq α]

/-- Scan one DP row `j ∈ [blo, bhi)` in ascending order, replacing the
best block whenever the row value strictly exceeds the best size
(difflib's `if k > bestsize`). -/
def scanRow (row : Nat → Nat) (i blo bhi : Nat) (best : MB) : MB :=
  (List.range' blo (bhi - blo)).foldl
    (fun best j =>
      let k := row j
      if best.sz < k then ⟨i + 1 - k, j + 1 - k, k⟩ else best)
    best

/-- The dynamic-programming loop of `find_longest_match`: `j2len` rows
(`prev` is the row for index `i - 1`), processing `n` more `a`-indices
starting at `i`.  A row value at `j` is the length of the longest
matching run ending at `(i, j)`, with junk elements of `b` excluded
(difflib stores them in `b2j` with junk removed). -/
def flmDP (a b : List α) (junk : α → Bool) (blo bhi : Nat) :
    Nat → Nat → (Nat → Nat) → MB → MB
  | _, 0, _, best => best
  | i, n + 1, prev, best =>
    match a[i]? with
    | none => flmDP a b junk blo bhi (i + 1) n (fun _ => 0) best
    | some x =>
      let row : Nat → Nat := fun j =>
        match b[j]?  with
        | some y =>
          if blo ≤ j ∧ j < bhi ∧ y = x ∧ junk y = false then
            (if j = blo then 0 else prev (j - 1)) + 1
          else 0
        | none => 0
      flmDP a b junk blo bhi (i + 1) n row (scanRow row i blo bhi best)

/-- difflib's while-loop extending the best block to the left over
elements of `b` satisfying `p` (`p` is non-junk for the first loop pair,
junk for the second). -/
def extL (a b : List α) (p : α → Bool) (alo blo : Nat) : Nat → MB → MB
  | 0, m => m
  | f + 1, m =>
    if alo < m.bi ∧ blo < m.bj then
      match a[m.bi - 1]?, b[m.bj - 1]? with
      | some x, some y =>
        if x = y ∧ p y then extL a b p alo blo f ⟨m.bi - 1, m.bj - 1, m.sz + 1⟩
        else m
      | _, _ => m
    else m

/-- difflib's while-loop extending the best block to the right over
elements of `b` satisfying `p`. -/
def extR (a b : List α) (p : α → Bool) (ahi bhi : Nat) : Nat → MB → MB
  | 0, m => m
  | f + 1, m =>
    if m.bi + m.sz < ahi ∧ m.bj + m.sz < bhi then
      match a[m.bi + m.sz]?, b[m.bj + m.sz]? with
      | some x, some y =>
        if x = y ∧ p y then extR a b p ahi bhi f ⟨m.bi, m.bj, m.sz + 1⟩
        else m
      | _, _ => m
    else m

/-- `find_longest_match(alo, ahi, blo, bhi)`: the DP sweep followed by
the four extension loops (non-junk then junk, each left then right). -/
def flm (a b : List α) (junk : α → Bool) (alo ahi blo bhi : Nat) : MB :=
  let m0 := flmDP a b junk blo bhi alo (ahi - alo) (fun _ => 0) ⟨alo, blo, 0⟩
  let m1 := extL a b (fun y => !junk y) alo blo m0.bi m0
  let m2 := extR a b (fun y => !junk y) ahi bhi ahi m1
  let m3 := extL a b (fun y => junk y) alo blo m2.bi m2
  let m4 := extR a b (fun y => junk y) ahi bhi ahi m3
  m4

/-- The recursive block collection of `get_matching_blocks` (difflib
maintains a queue and sorts afterwards; in-order recursion produces the
blocks already sorted).  The fuel is structural; callers supply
`a.length + b.length + 1`, more than the maximal recursion depth. -/
def matchingBlocksAux (a b : List α) (junk : α → Bool) :
    Nat → Nat → Nat → Nat → Nat → List MB
  | 0, _, _, _, _ => []
  | fuel + 1, alo, ahi, blo, bhi =>
    let m := flm a b junk alo ahi blo bhi
    if 0 < m.sz then
      matchingBlocksAux a b junk fuel alo m.bi blo m.bj ++
        m :: matchingBlocksAux a b junk fuel (m.bi + m.sz) ahi (m.bj + m.sz) bhi
    else []

/-- difflib's merging pass: adjacent blocks (in both sequences) are
coalesced, zero-size accumulators dropped. -/
def mergeAux : MB → List MB → List MB
  | acc, [] => if acc.sz ≠ 0 then [acc] else []
  | acc, m :: rest =>
    if acc.bi + acc.sz = m.bi ∧ acc.bj + acc.sz = m.bj then
      mergeAux ⟨acc.bi, acc.bj, acc.sz + m.sz⟩ rest
    else (if acc.sz ≠ 0 then [acc] else []) ++ mergeAux m rest

/-- `get_matching_blocks`: merged sorted blocks plus the
`(len(a), len(b), 0)` sentinel. -/
def mblocks (a b : List α) (junk : α → Bool) : List MB :=
  mergeAux ⟨0, 0, 0⟩
      (matchingBlocksAux a b junk (a.length + b.length + 1) 0 a.length 0 b.length) ++
    [⟨a.length, b.length, 0⟩]

/-- Opcode tags of `get_opcodes`. -/
inductive OTag
  | eq
  | del
  | ins
  | rep
deriving DecidableEq, Repr

/-- One opcode `(tag, i1, i2, j1, j2)`. -/
structure Opc where
  tag : OTag
  i1 : Nat
  i2 : Nat
  j1 : Nat
  j2 : Nat
deriving DecidableEq, Repr

/-- The opcode generation loop of `get_opcodes`, with running cursor
`(i, j)`. -/
def opGo : Nat → Nat → List MB → List Opc
  | _, _, [] => []
  | i, j, m :: rest =>
    let tagPart : List Opc :=
      if i < m.bi ∧ j < m.bj then [⟨OTag.rep, i, m.bi, j, m.bj⟩]
      else if i < m.bi then [⟨OTag.del, i, m.bi, j, m.bj⟩]
      else if j < m.bj then [⟨OTag.ins, i, m.bi, j, m.bj⟩]
      else []
    let eqPart : List Opc :=
      if m.sz ≠ 0 then [⟨OTag.eq, m.bi, m.bi + m.sz, m.bj, m.bj + m.sz⟩] else []
    tagPart ++ eqPart ++ opGo (m.bi + m.sz) (m.bj + m.sz) rest

/-- `get_opcodes()`. -/
def opcodes (a b : List α) (junk : α → Bool) : List Opc :=
  opGo 0 0 (mblocks a b junk)

/-- No b-side junk: `autojunk=False` and no junk function. -/
def noJunk : α → Bool := fun _ => false

/-- The autojunk heuristic of `SequenceMatcher.__chain_b` for default
construction: with `len(b) ≥ 200`, elements occurring more than
`len(b) // 100 + 1` times are popular and dropped from `b2j`. -/
def autoJunk (b : List α) : α → Bool :=
  if 200 ≤ b.length then fun y => b.length / 100 + 1 < b.count y
  else fun _ => false

/-- Total size of all matching blocks, as summed by `ratio()`. -/
def matchesSum (a b : List α) (junk : α → Bool) : Nat :=
  (mblocks a b junk).foldl (fun s m => s + m.sz) 0

/-- `SequenceMatcher.ratio()`, modelled over ℚ:
`2.0 * M / T` where `T = len(a) + len(b)`, and `1.0` when `T = 0`. -/
def ratioQ (a b : List α) (junk : α → Bool) : ℚ :=
  let t := a.length + b.length
  if t = 0 then 1 else mkRat (2 * matchesSum a b junk) t

/-!  ## normalize_text stages (C9, C10)

The two stages of `normalize_text` that the claims concern, embedded as
standalone functions on the text each stage receives.
-/

/-- Case-insensitive (ASCII) match of a literal word at the front of `s`,
returning the remainder. -/
def dropWordCI : List Char → List Char → Option (List Char)
  | [], s => some s
  | _, [] => none
  | p :: ps, c :: cs => if c.toLower = p.toLower then dropWordCI ps cs else none

/-- `re.fullmatch(r"Page\s+\d+(\s+of\s+\d+)?", s, re.IGNORECASE)` on an
already stripped line. -/
def isPageLine (s : List Char) : Bool :=
  match dropWordCI "Page".data s with
  | none => false
  | some r1 =>
    let w1 := r1.takeWhile pySpace
    let r2 := r1.dropWhile pySpace
    let d1 := r2.takeWhile pyDigit
    let r3 := r2.dropWhile pyDigit
    if w1.isEmpty || d1.isEmpty then false
    else if r3.isEmpty then true
    else
      let w2 := r3.takeWhile pySpace
      let r4 := r3.dropWhile pySpace
      if w2.isEmpty then false
      else match dropWordCI "of".data r4 with
        | none => false
        | some r5 =>
          let w3 := r5.takeWhile pySpace
          let r6 := r5.dropWhile pySpace
          let d2 := r6.takeWhile pyDigit
          let r7 := r6.dropWhile pyDigit
          !w3.isEmpty && !d2.isEmpty && r7.isEmpty

/-- `re.fullmatch(r"\d{1,4}", s)` on an already stripped line. -/
def isDigitRun14 (s : List Char) : Bool :=
  decide (1 ≤ s.length) && decide (s.length ≤ 4) && s.all pyDigit

/-- The line-filtering loop of the `remove_page_numbers` stage of
`normalize_text` (lines 96-108 of the source): `continue` on a
"Page X (of Y)" line or on a standalone run of 1-4 digits, else keep. -/
def pageFilterLoop : List (List Char) → List (List Char)
  | [] => []
  | ln :: rest =>
    if isPageLine (pyStrip ln) then pageFilterLoop rest
    else if isDigitRun14 (pyStrip ln) then pageFilterLoop rest
    else ln :: pageFilterLoop rest

/-- The `remove_page_numbers` stage of `normalize_text`:
split on newlines, drop pagination lines, rejoin. -/
def removePageNumbers (text : List Char) : List Char :=
  joinLines (pageFilterLoop (splitLines text))

/-- Description from the spec and claim wording: the stage removes
exactly the lines whose stripped content matches the "Page N (of M)"
pattern or is a run of one to four digits — whether or not the line is
substantive content. -/
def removePageNumbersSpec (text : List Char) : List Char :=
  joinLines ((splitLines text).filter
    (fun ln => !(isPageLine (pyStrip ln) || isDigitRun14 (pyStrip ln))))

/-- Non-blank stripped lines, as the `remove_repeated_headers_footers`
stage computes them (`[ln.strip() for ln in text.split("\n") if ln.strip()]`). -/
def nonBlankStripped (text : List Char) : List (List Char) :=
  ((splitLines text).map pyStrip).filter (fun ln => !ln.isEmpty)

/-- Membership in the `repeated` set of the
`remove_repeated_headers_footers` stage: stripped length 3..80 and
frequency at least `max(5, int(0.10 * len(lines)))` among non-blank
stripped lines (`int(0.10*n)` agrees with `n / 10` on these sizes). -/
def isRepeatedLine (lines : List (List Char)) (ln : List Char) : Bool :=
  decide (3 ≤ ln.length) && decide (ln.length ≤ 80) &&
  decide (max 5 (lines.length / 10) ≤ lines.count ln)

/-- The `remove_repeated_headers_footers` stage of `normalize_text`
(lines 140-156 of the source): only active when there are at least 50
non-blank lines; drops every line whose stripped content is in the
`repeated` set. -/
def removeRepeatedStep (text : List Char) : List Char :=
  let lines := nonBlankStripped text
  if 50 ≤ lines.length then
    if lines.any (fun ln => isRepeatedLine lines ln) then
      joinLines ((splitLines text).filter
        (fun ln => !isRepeatedLine lines (pyStrip ln)))
    else text
  else text

/-- The claim's description of generic repeated-line removal: every line
whose stripped content is 3..80 characters long and occurs on at least
`max(5, 10%)` of the non-blank lines is removed, and no other line is
removed.  (This is the claim verbatim; it has no minimum-size gate.) -/
def removeRepeatedClaim (text : List Char) : List Char :=
  joinLines ((splitLines text).filter
    (fun ln => !isRepeatedLine (nonBlankStripped text) (pyStrip ln)))

/-!  ## Tokenizer and inline differs (C2)

`tokenize_for_diff` is `re.findall(r"\w+|[^\w\s]", s)`: maximal word
runs, single non-word non-space characters, whitespace skipped.
-/

omit [DecidableEq α] in
/-- Auxiliary length bound for the tokenizer's termination. -/
theorem dropWhile_length_le (p : α → Bool) (l : List α) :
    (l.dropWhile p).length ≤ l.length := by
  induction l with
  | nil => simp [List.dropWhile]
  | cons c r ih =>
    simp only [List.dropWhile]
    cases p c <;> simp <;> omega

/-- The scanning loop of `tokenize_for_diff`; the fuel is structural and
strictly exceeds the remaining length at every call. -/
def tokenizeF : Nat → List Char → List (List Char)
  | 0, _ => []
  | _, [] => []
  | f + 1, c :: rest =>
    if pySpace c then tokenizeF f rest
    else if pyWord c then
      (c :: rest.takeWhile pyWord) :: tokenizeF f (rest.dropWhile pyWord)
    else [c] :: tokenizeF f rest

/-- `tokenize_for_diff`. -/
def tokenize (l : List Char) : List (List Char) := tokenizeF (l.length + 1) l

/-- The inner loop of `emit_text` in `diff_tokens_to_html`: insert one
space between two alnum tokens or after sentence punctuation followed by
an alnum token. -/
def emitGo (prev : List Char) : List (List Char) → List Char
  | [] => []
  | t :: ts =>
    (if ((!prev.isEmpty && prev.all pyAlnum) && (!t.isEmpty && t.all pyAlnum)) ||
        ((prev = ['.'] || prev = ['!'] || prev = ['?'] || prev = [':'] || prev = [';']) &&
         (!t.isEmpty && t.all pyAlnum)) then [' '] else []) ++ t ++ emitGo t ts

/-- `emit_text(tokens)`. -/
def emitText : List (List Char) → List Char
  | [] => []
  | t :: ts => t ++ emitGo t ts

/-- Kind of an inline diff span. -/
inductive DK
  | eq
  | del
  | ins
deriving DecidableEq, Repr

/-- A `DiffSpan`: kind and text. -/
structure Span where
  k : DK
  tx : List Char
deriving DecidableEq, Repr

/-- Span emission for one opcode of `diff_tokens_to_html`.  The source
emits HTML (`html.escape` plus `<del>/<ins>` tags); at the DiffSpan level
the text of a span is the `emit_text` of the token slice, and delete /
insert spans are dropped when their stripped text is empty
(`if deleted.strip():`). -/
def tokSpanOf (ot nt : List (List Char)) (op : Opc) : List Span :=
  match op.tag with
  | OTag.eq => [⟨DK.eq, emitText (seg ot op.i1 op.i2)⟩]
  | OTag.del =>
    let d := emitText (seg ot op.i1 op.i2)
    if (pyStrip d).isEmpty then [] else [⟨DK.del, d⟩]
  | OTag.ins =>
    let d := emitText (seg nt op.j1 op.j2)
    if (pyStrip d).isEmpty then [] else [⟨DK.ins, d⟩]
  | OTag.rep =>
    (let d := emitText (seg ot op.i1 op.i2)
     if (pyStrip d).isEmpty then [] else [⟨DK.del, d⟩]) ++
    (let d := emitText (seg nt op.j1 op.j2)
     if (pyStrip d).isEmpty then [] else [⟨DK.ins, d⟩])

/-- `diff_tokens_to_html` at the DiffSpan level: tokenize both sides,
run `SequenceMatcher` (`autojunk=False`) over the token lists, and emit
Equal / Delete / Insert spans per opcode. -/
def diffTokensSpans (old new : List Char) : List Span :=
  let ot := tokenize old
  let nt := tokenize new
  (opcodes ot nt noJunk).flatMap (tokSpanOf ot nt)

/-- Modelled from the spec: the character-level semantic strategy
(`dmp_inline`, backed by the external `diff_match_patch` library, which
is not part of this repository and whose exact output depends on a
wall-clock time budget).  Per the spec it is a character-level LCS diff
producing Equal / Delete / Insert spans, returning a single Equal span
on identical inputs, with empty spans dropped before emission. -/
def charSpanOf (a b : List Char) (op : Opc) : List Span :=
  match op.tag with
  | OTag.eq =>
    let d := seg a op.i1 op.i2
    if d.isEmpty then [] else [⟨DK.eq, d⟩]
  | OTag.del =>
    let d := seg a op.i1 op.i2
    if d.isEmpty then [] else [⟨DK.del, d⟩]
  | OTag.ins =>
    let d := seg b op.j1 op.j2
    if d.isEmpty then [] else [⟨DK.ins, d⟩]
  | OTag.rep =>
    (let d := seg a op.i1 op.i2
     if d.isEmpty then [] else [⟨DK.del, d⟩]) ++
    (let d := seg b op.j1 op.j2
     if d.isEmpty then [] else [⟨DK.ins, d⟩])

/-- Modelled from the spec: `dmp_inline` at the DiffSpan level (see
`charSpanOf`). -/
def dmpInlineSpans (old new : List Char) : List Span :=
  if old = new then (if old.isEmpty then [] else [⟨DK.eq, old⟩])
  else (opcodes old new noJunk).flatMap (charSpanOf old new)

/-- Concatenated text of the spans whose kind satisfies `p`. -/
def spanText (p : DK → Bool) (spans : List Span) : List Char :=
  (spans.filter (fun s => p s.k)).flatMap (fun s => s.tx)

/-!  ## Chunker: ANCHOR_RE and split_by_anchors (C7, C8)

`ANCHOR_RE` is the verbose multiline pattern

  `^\s*[IVXLCDM]+\.\s+.+$  |  ^\s*\d+\.\s+`

and `split_by_anchors` walks `ANCHOR_RE.finditer(text)`.  The matchers
below implement the two alternatives with Python regex semantics:
greedy quantifiers, `\s` including newlines, `.` excluding newlines, `$`
before a newline or at the end, and alternation preferring the first
branch.  `finditer` yields leftmost non-overlapping matches.
-/

/-- Roman-numeral characters of the class `[IVXLCDM]`. -/
def isRomanChar (c : Char) : Bool :=
  c = 'I' || c = 'V' || c = 'X' || c = 'L' || c = 'C' || c = 'D' || c = 'M'

/-- Greedy backtracking split between `\s+` and `.+` in the first
alternative: the largest `k` with `1 ≤ k ≤ w` such that the character
after the consumed whitespace exists and is not a newline. -/
def wsDotSplit (r : List Char) : Nat → Option Nat
  | 0 => none
  | k + 1 =>
    match r[k + 1]? with
    | some c => if c ≠ '\n' then some (k + 1) else wsDotSplit r k
    | none => wsDotSplit r k

/-- Match of the first alternative `\s*[IVXLCDM]+\.\s+.+$` against the
suffix `l`, returning the number of characters consumed. -/
def matchRoman (l : List Char) : Option Nat :=
  let w0 := l.takeWhile pySpace
  let r1 := l.dropWhile pySpace
  let rom := r1.takeWhile isRomanChar
  let r2 := r1.dropWhile isRomanChar
  if rom.isEmpty then none
  else match r2 with
    | '.' :: r3 =>
      let w1 := r3.takeWhile pySpace
      if w1.isEmpty then none
      else match wsDotSplit r3 w1.length with
        | none => none
        | some k =>
          let m := ((r3.drop k).takeWhile (fun c => c ≠ '\n')).length
          some (w0.length + rom.length + 1 + k + m)
    | _ => none

/-- Match of the second alternative `\s*\d+\.\s+` against the suffix
`l`, returning the number of characters consumed. -/
def matchNumbered (l : List Char) : Option Nat :=
  let w0 := l.takeWhile pySpace
  let r1 := l.dropWhile pySpace
  let d := r1.takeWhile pyDigit
  let r2 := r1.dropWhile pyDigit
  if d.isEmpty then none
  else match r2 with
    | '.' :: r3 =>
      let w1 := r3.takeWhile pySpace
      if w1.isEmpty then none else some (w0.length + d.length + 1 + w1.length)
    | _ => none

/-- `ANCHOR_RE` at one position: alternation tries the Roman-heading
branch first. -/
def matchAnchor (l : List Char) : Option Nat :=
  match matchRoman l with
  | some n => some n
  | none => matchNumbered l

/-- Every `ANCHOR_RE` match consumes at least one character. -/
theorem matchAnchor_pos {l : List Char} {n : Nat} (h : matchAnchor l = some n) :
    1 ≤ n := by
  unfold matchAnchor at h
  cases hr : matchRoman l with
  | some m =>
    rw [hr] at h
    unfold matchRoman at hr
    simp only at hr
    split at hr
    · exact absurd hr (by simp)
    · split at hr
      · split at hr
        · exact absurd hr (by simp)
        · split at hr
          · exact absurd hr (by simp)
          · simp only [Option.some.injEq] at hr h
            omega
      · exact absurd hr (by simp)
  | none =>
    rw [hr] at h
    unfold matchNumbered at h
    simp only at h
    split at h
    · exact absurd h (by simp)
    · split at h
      · split at h
        · exact absurd h (by simp)
        · simp only [Option.some.injEq] at h
          omega
      · exact absurd h (by simp)

/-- The scan of `ANCHOR_RE.finditer(text)`: positions are tried left to
right; `^` (multiline) holds at offset 0 or after a newline; after a
match the scan resumes at its end.  Returns the match start positions.
`p` is the current offset, `l` the remaining suffix, `ls` whether the
offset is at a line start.  The fuel is structural and strictly exceeds
the remaining length at every call (every match consumes at least one
character). -/
def anchorScan : Nat → Nat → List Char → Bool → List Nat
  | 0, _, _, _ => []
  | _, _, [], _ => []
  | f + 1, p, c :: rest, ls =>
    if ls then
      match matchAnchor (c :: rest) with
      | some n =>
        p :: anchorScan f (p + n) ((c :: rest).drop n)
            (match (c :: rest)[n - 1]? with
             | some d => d = '\n'
             | none => false)
      | none => anchorScan f (p + 1) rest (c = '\n')
    else anchorScan f (p + 1) rest (c = '\n')

/-- Anchor match start positions of `ANCHOR_RE.finditer(text)`. -/
def anchorStarts (text : List Char) : List Nat :=
  anchorScan (text.length + 1) 0 text true

/-- `split_by_anchors(text)`: list of `(anchor, chunk_text)`.  Each chunk
runs from one match start to the next (final chunk to the end), with
newlines stripped at both ends; the anchor is the stripped first line of
the chunk; with no match at all, the single chunk `("DOCUMENT", text)`. -/
def splitByAnchors (text : List Char) : List (List Char × List Char) :=
  match anchorStarts text with
  | [] => [("DOCUMENT".data, text)]
  | s :: ss =>
    let starts := s :: ss
    let bounds := starts.zip (ss ++ [text.length])
    bounds.map (fun sb =>
      let chunk := stripNl (seg text sb.1 sb.2)
      (pyStrip (chunk.takeWhile (fun c => c ≠ '\n')), chunk))

/-!  ## paragraph similarity and align_paragraphs (C1, C4, C5)
-/

/-- `paragraph_similarity(a, b) = SequenceMatcher(None, a, b).ratio()`
(default construction, so autojunk applies to `b`). -/
def paragraphSimilarity (a b : List Char) : ℚ := ratioQ a b (autoJunk b)

/-- The inner best-candidate scan of the replace branch of
`align_paragraphs`: for one old paragraph, scan `enumerate(news)`,
skipping claimed indices, keeping the first index whose score strictly
exceeds the running best (which starts at 0). -/
def bcAux (o : List Char) (used : List Nat) :
    List (Nat × List Char) → Option Nat × ℚ → Option Nat × ℚ
  | [], st => st
  | jn :: rest, st =>
    bcAux o used rest
      (if jn.1 ∈ used then st
       else
         let s := paragraphSimilarity o jn.2
         if st.2 < s then (some jn.1, s) else st)

/-- Best unclaimed candidate `(best_j, best_score)` for one old
paragraph. -/
def bestCandidate (o : List Char) (news : List (List Char)) (used : List Nat) :
    Option Nat × ℚ :=
  bcAux o used (enumF 0 news) (none, 0)

/-- The claim decision of the replace branch for one old paragraph:
the scanned best candidate index, claimed exactly when
`best_j is not None and best_score >= threshold` (the threshold is
hard-coded `0.35` in the source and a parameter in the spec's
contract). -/
def rrClaim (t : ℚ) (o : List Char) (news : List (List Char)) (used : List Nat) :
    Option Nat :=
  match (bestCandidate o news used).1 with
  | some j => if t ≤ (bestCandidate o news used).2 then some j else none
  | none => none

/-- The replace-run resolution loop of `align_paragraphs`: each old
paragraph in order claims its best unclaimed candidate when the score
is at least the threshold, else becomes an old-only pair; afterwards
unclaimed news are appended as new-only pairs in original order. -/
def rrGo (t : ℚ) (news : List (List Char)) :
    List (List Char) → List Nat → List (Option (List Char) × Option (List Char))
  | [], used =>
    ((enumF 0 news).filter (fun jn => jn.1 ∉ used)).map
      (fun jn => (none, some jn.2))
  | o :: olds, used =>
    match rrClaim t o news used with
    | some j => (some o, some (news.getD j [])) :: rrGo t news olds (j :: used)
    | none => (some o, none) :: rrGo t news olds used

/-- Replace-run resolution with threshold `t`, starting with no claimed
news. -/
def resolveReplace (t : ℚ) (olds news : List (List Char)) :
    List (Option (List Char) × Option (List Char)) :=
  rrGo t news olds []

/-- `align_paragraphs` with the similarity threshold as a parameter:
`SequenceMatcher(None, old, new, autojunk=False)` over the paragraph
lists, emitting matched pairs for equal opcodes, one-sided pairs for
delete / insert, and the greedy similarity resolution for replace
opcodes. -/
def alignParagraphsT (t : ℚ) (olds news : List (List Char)) :
    List (Option (List Char) × Option (List Char)) :=
  (opcodes olds news noJunk).flatMap (fun op =>
    match op.tag with
    | OTag.eq =>
      (List.range (op.i2 - op.i1)).map
        (fun k => (some (olds.getD (op.i1 + k) []), some (news.getD (op.j1 + k) [])))
    | OTag.del =>
      (List.range' op.i1 (op.i2 - op.i1)).map (fun k => (some (olds.getD k []), none))
    | OTag.ins =>
      (List.range' op.j1 (op.j2 - op.j1)).map (fun k => (none, some (news.getD k [])))
    | OTag.rep => resolveReplace t (seg olds op.i1 op.i2) (seg news op.j1 op.j2))

/-- `align_paragraphs` as in the source (threshold `0.35`). -/
def alignParagraphs (olds news : List (List Char)) :
    List (Option (List Char) × Option (List Char)) :=
  alignParagraphsT (mkRat 35 100) olds news

/-- Old-side projection: pairs with the `None` old sides stripped. -/
def oldProj (ps : List (Option β × Option β)) : List β := ps.filterMap (fun p => p.1)

/-- New-side projection: pairs with the `None` new sides stripped. -/
def newProj (ps : List (Option β × Option β)) : List β := ps.filterMap (fun p => p.2)

/-!  ## Anchor-based alignment of build_redline_html (C3, C6)

`build_redline_html` aligns chunk lists by exact anchor lookup: a map
from the new side's anchors to chunk bodies with first occurrence kept
(`new_map.setdefault`), one pass over the old chunks producing matched
or old-only pairs, then never-claimed new chunks as new-only pairs.
This is its alignment structure with the HTML formatting stripped.
-/

/-- `new_map.get(a)` where the map keeps the first chunk for each
anchor. -/
def lookupAnchor (chunks : List (List Char × List Char)) (a : List Char) :
    Option (List Char) :=
  (chunks.find? (fun c => c.1 = a)).map (fun c => c.2)

/-- An aligned pair of chunks `(anchor, body)`. -/
abbrev APair := Option (List Char × List Char) × Option (List Char × List Char)

/-- The old-chunk loop of `build_redline_html`: matched pairs claim the
anchor into `used_new`; misses become old-only pairs. -/
def abaGo (newChunks : List (List Char × List Char)) :
    List (List Char × List Char) → List (List Char) → List APair × List (List Char)
  | [], used => ([], used)
  | c :: rest, used =>
    match lookupAnchor newChunks c.1 with
    | none =>
      let r := abaGo newChunks rest used
      ((some c, none) :: r.1, r.2)
    | some bn =>
      let r := abaGo newChunks rest (c.1 :: used)
      ((some c, some (c.1, bn)) :: r.1, r.2)

/-- The alignment produced by `build_redline_html` on two chunk lists:
the old-loop pairs followed by the new chunks whose anchor is not in
`used_new`, as new-only pairs. -/
def alignByAnchors (oldChunks newChunks : List (List Char × List Char)) :
    List APair :=
  let r := abaGo newChunks oldChunks []
  r.1 ++ (newChunks.filter (fun c => c.1 ∉ r.2)).map (fun c => (none, some c))

/-!  ## Structural lemmas about the SequenceMatcher embedding
-/

omit [DecidableEq α] in
theorem sliceEq_zero (a b : List α) (i j : Nat) : sliceEq a b i j 0 := by
  intro m hm; omega

omit [DecidableEq α] in
theorem sliceEq_concat {a b : List α} {i j s t : Nat}
    (h1 : sliceEq a b i j s) (h2 : sliceEq a b (i + s) (j + s) t) :
    sliceEq a b i j (s + t) := by
  intro m hm
  by_cases hc : m < s
  · exact h1 m hc
  · have h3 := h2 (m - s) (by omega)
    have h4 : i + s + (m - s) = i + m := by omega
    have h5 : j + s + (m - s) = j + m := by omega
    rw [h4, h5] at h3
    exact h3

/-- A block fits the window `[alo, ahi) × [blo, bhi)` and matches. -/
def MBFits (a b : List α) (alo blo ahi bhi : Nat) (m : MB) : Prop :=
  alo ≤ m.bi ∧ blo ≤ m.bj ∧ m.bi + m.sz ≤ ahi ∧ m.bj + m.sz ≤ bhi ∧
    sliceEq a b m.bi m.bj m.sz

/-- Validity of a DP row built for `a`-index `iNext - 1`. -/
def RowOk (a b : List α) (alo blo bhi iNext : Nat) (row : Nat → Nat) : Prop :=
  ∀ j, 0 < row j →
    alo + row j ≤ iNext ∧ blo + row j ≤ j + 1 ∧ j < bhi ∧
    sliceEq a b (iNext - row j) (j + 1 - row j) (row j)

omit [DecidableEq α] in
theorem rowOk_zero (a b : List α) (alo blo bhi iNext : Nat) :
    RowOk a b alo blo bhi iNext (fun _ => 0) := by
  intro j hj; simp at hj

theorem scanRow_fits {a b : List α} {alo blo ahi bhi i : Nat} {row : Nat → Nat}
    {best : MB} (hrow : RowOk a b alo blo bhi (i + 1) row) (hi : i < ahi)
    (hbest : MBFits a b alo blo ahi bhi best) :
    MBFits a b alo blo ahi bhi (scanRow row i blo bhi best) := by
  unfold scanRow
  generalize List.range' blo (bhi - blo) = js
  induction js generalizing best with
  | nil => exact hbest
  | cons j js ih =>
    simp only [List.foldl_cons]
    apply ih
    by_cases hk : best.sz < row j
    · simp only [hk, if_pos]
      have h0 : 0 < row j := by omega
      obtain ⟨h1, h2, h3, h4⟩ := hrow j h0
      exact ⟨by show alo ≤ i + 1 - row j; omega,
             by show blo ≤ j + 1 - row j; omega,
             by show i + 1 - row j + row j ≤ ahi; omega,
             by show j + 1 - row j + row j ≤ bhi; omega,
             h4⟩
    · simp only [hk, if_neg]; exact hbest

theorem rowOk_step {a b : List α} {junk : α → Bool} {alo blo bhi i : Nat}
    {prev : Nat → Nat} {x : α} (hx : a[i]? = some x) (hai : alo ≤ i)
    (hprev : RowOk a b alo blo bhi i prev) :
    RowOk a b alo blo bhi (i + 1) (fun j =>
      match b[j]?  with
      | some y =>
        if blo ≤ j ∧ j < bhi ∧ y = x ∧ junk y = false then
          (if j = blo then 0 else prev (j - 1)) + 1
        else 0
      | none => 0) := by
  intro j hj
  by_cases hcond : ∃ y, b[j]? = some y ∧ blo ≤ j ∧ j < bhi ∧ y = x ∧ junk y = false
  · obtain ⟨y, hy, hc1, hc2, hc3, hc4⟩ := hcond
    have hrj : (fun j => match b[j]?  with
        | some y =>
          if blo ≤ j ∧ j < bhi ∧ y = x ∧ junk y = false then
            (if j = blo then 0 else prev (j - 1)) + 1
          else 0
        | none => 0) j = (if j = blo then 0 else prev (j - 1)) + 1 := by
      simp only [hy]
      rw [if_pos ⟨hc1, hc2, hc3, hc4⟩]
    rw [hrj] at hj ⊢
    have hbj : b[j]? = some x := by rw [hy, hc3]
    by_cases hjb : j = blo
    · rw [if_pos hjb]
      subst hjb
      refine ⟨by omega, by omega, hc2, ?_⟩
      intro m hm
      have hm0 : m = 0 := by omega
      subst hm0
      have e1 : i + 1 - (0 + 1) = i := by omega
      have e2 : j + 1 - (0 + 1) = j := by omega
      rw [e1, e2]
      simpa [hx] using hbj.symm
    · rw [if_neg hjb]
      by_cases hp : 0 < prev (j - 1)
      · obtain ⟨h1, h2, h3, h4⟩ := hprev (j - 1) hp
        have hjpos : 0 < j := by omega
        have e3 : j - 1 + 1 = j := by omega
        rw [e3] at h4
        refine ⟨by omega, by omega, hc2, ?_⟩
        have e6 : i + 1 - (prev (j - 1) + 1) = i - prev (j - 1) := by omega
        have e7 : j + 1 - (prev (j - 1) + 1) = j - prev (j - 1) := by omega
        rw [e6, e7]
        apply sliceEq_concat h4
        intro m hm
        have hm0 : m = 0 := by omega
        subst hm0
        have e4 : i - prev (j - 1) + prev (j - 1) + 0 = i := by omega
        have e5 : j - prev (j - 1) + prev (j - 1) + 0 = j := by omega
        rw [e4, e5, hx, hbj]
      · have hp0 : prev (j - 1) = 0 := by omega
        rw [hp0]
        refine ⟨by omega, by omega, hc2, ?_⟩
        intro m hm
        have hm0 : m = 0 := by omega
        subst hm0
        have e1 : i + 1 - (0 + 1) = i := by omega
        have e2 : j + 1 - (0 + 1) = j := by omega
        rw [e1, e2, Nat.add_zero, Nat.add_zero, hx, hbj]
  · exfalso
    revert hj
    cases hy : b[j]? with
    | none => simp [hy]
    | some y =>
      simp only [hy]
      rw [if_neg (by intro hc; exact hcond ⟨y, hy, hc⟩)]
      simp

theorem flmDP_fits {a b : List α} {junk : α → Bool} {alo blo ahi bhi : Nat} :
    ∀ (n i : Nat) (prev : Nat → Nat) (best : MB),
      alo ≤ i → i + n ≤ ahi → RowOk a b alo blo bhi i prev →
      MBFits a b alo blo ahi bhi best →
      MBFits a b alo blo ahi bhi (flmDP a b junk blo bhi i n prev best) := by
  intro n
  induction n with
  | zero => intro i prev best _ _ _ hbest; exact hbest
  | succ n ih =>
    intro i prev best hai hia hprev hbest
    unfold flmDP
    cases hx : a[i]? with
    | none =>
      exact ih (i + 1) _ best (by omega) (by omega) (rowOk_zero a b alo blo bhi (i + 1)) hbest
    | some x =>
      have hrow := @rowOk_step _ _ a b junk alo blo bhi i prev x hx hai hprev
      exact ih (i + 1) _ _ (by omega) (by omega) hrow
        (scanRow_fits hrow (by omega) hbest)

theorem extL_fits {a b : List α} {p : α → Bool} {alo blo ahi bhi : Nat} :
    ∀ (f : Nat) (m : MB), MBFits a b alo blo ahi bhi m →
      MBFits a b alo blo ahi bhi (extL a b p alo blo f m) := by
  intro f
  induction f with
  | zero => intro m hm; exact hm
  | succ f ih =>
    intro m hm
    unfold extL
    by_cases hc : alo < m.bi ∧ blo < m.bj
    · rw [if_pos hc]
      cases hxa : a[m.bi - 1]? with
      | none => exact hm
      | some x =>
        cases hyb : b[m.bj - 1]? with
        | none => exact hm
        | some y =>
          dsimp only
          by_cases hxy : x = y ∧ p y
          · rw [if_pos hxy]
            apply ih
            obtain ⟨h1, h2, h3, h4, h5⟩ := hm
            refine ⟨by show alo ≤ m.bi - 1; omega,
                    by show blo ≤ m.bj - 1; omega,
                    by show m.bi - 1 + (m.sz + 1) ≤ ahi; omega,
                    by show m.bj - 1 + (m.sz + 1) ≤ bhi; omega, ?_⟩
            show sliceEq a b (m.bi - 1) (m.bj - 1) (m.sz + 1)
            intro k hk
            cases k with
            | zero =>
              simp only [Nat.add_zero]
              rw [hxa, hyb, hxy.1]
            | succ k =>
              have e1 : m.bi - 1 + (k + 1) = m.bi + k := by omega
              have e2 : m.bj - 1 + (k + 1) = m.bj + k := by omega
              rw [e1, e2]
              exact h5 k (by omega)
          · rw [if_neg hxy]; exact hm
    · rw [if_neg hc]; exact hm

theorem extR_fits {a b : List α} {p : α → Bool} {alo blo ahi bhi : Nat} :
    ∀ (f : Nat) (m : MB), MBFits a b alo blo ahi bhi m →
      MBFits a b alo blo ahi bhi (extR a b p ahi bhi f m) := by
  intro f
  induction f with
  | zero => intro m hm; exact hm
  | succ f ih =>
    intro m hm
    unfold extR
    by_cases hc : m.bi + m.sz < ahi ∧ m.bj + m.sz < bhi
    · rw [if_pos hc]
      cases hxa : a[m.bi + m.sz]? with
      | none => exact hm
      | some x =>
        cases hyb : b[m.bj + m.sz]? with
        | none => exact hm
        | some y =>
          dsimp only
          by_cases hxy : x = y ∧ p y
          · rw [if_pos hxy]
            apply ih
            obtain ⟨h1, h2, h3, h4, h5⟩ := hm
            refine ⟨h1, h2,
                    by show m.bi + (m.sz + 1) ≤ ahi; omega,
                    by show m.bj + (m.sz + 1) ≤ bhi; omega, ?_⟩
            show sliceEq a b m.bi m.bj (m.sz + 1)
            intro k hk
            by_cases hks : k < m.sz
            · exact h5 k hks
            · have hke : k = m.sz := by omega
              subst hke
              rw [hxa, hyb, hxy.1]
          · rw [if_neg hxy]; exact hm
    · rw [if_neg hc]; exact hm

theorem flm_fits {a b : List α} {junk : α → Bool} {alo ahi blo bhi : Nat}
    (h1 : alo ≤ ahi) (h2 : blo ≤ bhi) :
    MBFits a b alo blo ahi bhi (flm a b junk alo ahi blo bhi) := by
  unfold flm
  apply extR_fits
  apply extL_fits
  apply extR_fits
  apply extL_fits
  apply flmDP_fits _ _ _ _ (Nat.le_refl alo) (by omega) (rowOk_zero a b alo blo bhi alo)
  exact ⟨Nat.le_refl alo, Nat.le_refl blo, by simpa using h1, by simpa using h2,
         sliceEq_zero a b alo blo⟩

/-- A chain of matching blocks: cursor-monotone, each block matching,
running from cursor `(i, j)` to endpoint `(x, y)`. -/
inductive ChainB (a b : List α) : Nat → Nat → List MB → Nat → Nat → Prop
  | nil : ∀ i j, ChainB a b i j [] i j
  | cons : ∀ (i j : Nat) (m : MB) (rest : List MB) (x y : Nat),
      i ≤ m.bi → j ≤ m.bj → sliceEq a b m.bi m.bj m.sz →
      ChainB a b (m.bi + m.sz) (m.bj + m.sz) rest x y →
      ChainB a b i j (m :: rest) x y

omit [DecidableEq α] in
theorem chainB_le {a b : List α} :
    ∀ {bs : List MB} {i j x y : Nat}, ChainB a b i j bs x y → i ≤ x ∧ j ≤ y := by
  intro bs
  induction bs with
  | nil => intro i j x y h; cases h; omega
  | cons m rest ih =>
    intro i j x y h
    cases h with
    | cons _ _ _ _ _ _ hi hj _ hrest =>
      have := ih hrest
      omega

omit [DecidableEq α] in
theorem chainB_append {a b : List α} {L R : List MB} {i j p q x y : Nat}
    (hL : ChainB a b i j L p q) (hR : ChainB a b p q R x y) :
    ChainB a b i j (L ++ R) x y := by
  induction hL with
  | nil => exact hR
  | cons i j m rest x1 y1 hi hj hs hrest ih =>
    exact ChainB.cons i j m (rest ++ R) x y hi hj hs (ih hR)

omit [DecidableEq α] in
theorem chainB_snoc {a b : List α} {L : List MB} {i j p q x y : Nat} {m : MB}
    (hL : ChainB a b i j L p q) (hp : p ≤ m.bi) (hq : q ≤ m.bj)
    (hs : sliceEq a b m.bi m.bj m.sz)
    (hR : ChainB a b (m.bi + m.sz) (m.bj + m.sz) [] x y) :
    ChainB a b i j (L ++ [m]) x y :=
  chainB_append hL (ChainB.cons p q m [] x y hp hq hs hR)

theorem mba_chain {a b : List α} {junk : α → Bool} :
    ∀ (fuel alo ahi blo bhi : Nat), alo ≤ ahi → blo ≤ bhi →
      ∃ x y, ChainB a b alo blo (matchingBlocksAux a b junk fuel alo ahi blo bhi) x y ∧
        x ≤ ahi ∧ y ≤ bhi ∧
        (∀ mb ∈ matchingBlocksAux a b junk fuel alo ahi blo bhi, 0 < mb.sz) := by
  intro fuel
  induction fuel with
  | zero =>
    intro alo ahi blo bhi h1 h2
    exact ⟨alo, blo, ChainB.nil alo blo, h1, h2, by intro mb hmb; simp [matchingBlocksAux] at hmb⟩
  | succ fuel ih =>
    intro alo ahi blo bhi h1 h2
    unfold matchingBlocksAux
    have hfits := @flm_fits _ _ a b junk alo ahi blo bhi h1 h2
    set m := flm a b junk alo ahi blo bhi with hmdef
    obtain ⟨hf1, hf2, hf3, hf4, hf5⟩ := hfits
    by_cases hsz : 0 < m.sz
    · rw [if_pos hsz]
      obtain ⟨x1, y1, hcl, hx1, hy1, hposL⟩ := ih alo m.bi blo m.bj hf1 hf2
      obtain ⟨x2, y2, hcr, hx2, hy2, hposR⟩ :=
        ih (m.bi + m.sz) ahi (m.bj + m.sz) bhi hf3 hf4
      refine ⟨x2, y2, ?_, hx2, hy2, ?_⟩
      · exact chainB_append hcl
          (ChainB.cons x1 y1 m _ x2 y2 hx1 hy1 hf5 hcr)
      · intro mb hmb
        simp only [List.mem_append, List.mem_cons] at hmb
        rcases hmb with h | h | h
        · exact hposL mb h
        · subst h; exact hsz
        · exact hposR mb h
    · rw [if_neg hsz]
      exact ⟨alo, blo, ChainB.nil alo blo, h1, h2, by intro mb hmb; simp [matchingBlocksAux] at hmb⟩

theorem mergeAux_chain {a b : List α} :
    ∀ (bs : List MB) (acc : MB) (i j x y : Nat),
      ChainB a b i j (acc :: bs) x y →
      (acc.sz = 0 → acc.bi = i ∧ acc.bj = j) →
      (∀ mb ∈ bs, 0 < mb.sz) →
      ChainB a b i j (mergeAux acc bs) x y := by
  intro bs
  induction bs with
  | nil =>
    intro acc i j x y hc hz _
    cases hc with
    | cons _ _ _ _ _ _ hi hj hs hrest =>
      cases hrest
      unfold mergeAux
      by_cases hsz : acc.sz ≠ 0
      · rw [if_pos hsz]
        exact ChainB.cons i j acc [] _ _ hi hj hs (ChainB.nil _ _)
      · rw [if_neg hsz]
        have hz0 : acc.sz = 0 := by omega
        obtain ⟨hbi, hbj⟩ := hz hz0
        have : acc.bi + acc.sz = i := by omega
        have : acc.bj + acc.sz = j := by omega
        subst this
        have e : acc.bi + acc.sz = i := by omega
        rw [e]
        exact ChainB.nil i (acc.bj + acc.sz)
  | cons m rest ih =>
    intro acc i j x y hc hz hpos
    cases hc with
    | cons _ _ _ _ _ _ hi hj hs hrest =>
      cases hrest with
      | cons _ _ _ _ _ _ hmi hmj hms hrest2 =>
        unfold mergeAux
        by_cases hadj : acc.bi + acc.sz = m.bi ∧ acc.bj + acc.sz = m.bj
        · rw [if_pos hadj]
          apply ih ⟨acc.bi, acc.bj, acc.sz + m.sz⟩ i j x y
          · refine ChainB.cons i j _ rest x y hi hj ?_ ?_
            · show sliceEq a b acc.bi acc.bj (acc.sz + m.sz)
              apply sliceEq_concat hs
              rw [hadj.1, hadj.2]
              exact hms
            · show ChainB a b (acc.bi + (acc.sz + m.sz)) (acc.bj + (acc.sz + m.sz)) rest x y
              have e1 : acc.bi + (acc.sz + m.sz) = m.bi + m.sz := by omega
              have e2 : acc.bj + (acc.sz + m.sz) = m.bj + m.sz := by omega
              rw [e1, e2]
              exact hrest2
          · intro h0
            exfalso
            have := hpos m (by simp)
            simp only at h0
            omega
          · intro mb hmb
            exact hpos mb (by simp [hmb])
        · rw [if_neg hadj]
          have hch : ChainB a b (acc.bi + acc.sz) (acc.bj + acc.sz) (mergeAux m rest) x y := by
            apply ih m _ _ x y
            · exact ChainB.cons _ _ m rest x y hmi hmj hms hrest2
            · intro h0
              exfalso
              have := hpos m (by simp)
              omega
            · intro mb hmb
              exact hpos mb (by simp [hmb])
          by_cases hsz : acc.sz ≠ 0
          · rw [if_pos hsz]
            exact ChainB.cons i j acc _ x y hi hj hs hch
          · rw [if_neg hsz]
            have hz0 : acc.sz = 0 := by omega
            obtain ⟨hbi, hbj⟩ := hz hz0
            simp only [List.nil_append]
            have e1 : acc.bi + acc.sz = i := by omega
            have e2 : acc.bj + acc.sz = j := by omega
            rw [e1, e2] at hch
            exact hch

theorem mblocks_chain (a b : List α) (junk : α → Bool) :
    ChainB a b 0 0 (mblocks a b junk) a.length b.length := by
  unfold mblocks
  obtain ⟨x, y, hc, hx, hy, hpos⟩ :=
    @mba_chain _ _ a b junk
      (a.length + b.length + 1) 0 a.length 0 b.length (Nat.zero_le _) (Nat.zero_le _)
  apply chainB_snoc (m := ⟨a.length, b.length, 0⟩)
      (mergeAux_chain _ ⟨0, 0, 0⟩ 0 0 x y
        (ChainB.cons 0 0 ⟨0, 0, 0⟩ _ x y (Nat.le_refl 0) (Nat.le_refl 0)
          (sliceEq_zero a b 0 0) hc)
        (fun _ => ⟨rfl, rfl⟩) hpos)
      hx hy (sliceEq_zero a b a.length b.length)
  show ChainB a b (a.length + 0) (b.length + 0) [] a.length b.length
  simpa using ChainB.nil a.length b.length

omit [DecidableEq α] in
/-- The total size of a chained block list is bounded by the window it
spans, on both sides. -/
theorem chainB_foldl_le {a b : List α} :
    ∀ {bs : List MB} {i j x y : Nat}, ChainB a b i j bs x y →
      ∀ s : Nat, bs.foldl (fun s m => s + m.sz) s ≤ s + (x - i) ∧
        bs.foldl (fun s m => s + m.sz) s ≤ s + (y - j) := by
  intro bs
  induction bs with
  | nil =>
    intro i j x y h s
    cases h
    simp
  | cons m rest ih =>
    intro i j x y h s
    cases h with
    | cons _ _ _ _ _ _ hi hj _ hrest =>
      have hle := chainB_le hrest
      have := ih hrest (s + m.sz)
      simp only [List.foldl_cons]
      omega

theorem matchesSum_le (a b : List α) (junk : α → Bool) :
    matchesSum a b junk ≤ a.length ∧ matchesSum a b junk ≤ b.length := by
  have h := chainB_foldl_le (mblocks_chain a b junk) 0
  unfold matchesSum
  omega

/-- `ratio()` lies in `[0, 1]`. -/
theorem ratioQ_bounds (a b : List α) (junk : α → Bool) :
    0 ≤ ratioQ a b junk ∧ ratioQ a b junk ≤ 1 := by
  unfold ratioQ
  by_cases h : a.length + b.length = 0
  · rw [if_pos h]; norm_num
  · rw [if_neg h]
    rw [Rat.mkRat_eq_div]
    have hm := matchesSum_le a b junk
    have hpos : (0 : ℚ) < ((a.length + b.length : Nat) : ℚ) := by
      have : 0 < a.length + b.length := by omega
      exact_mod_cast this
    constructor
    · apply div_nonneg _ (le_of_lt hpos)
      positivity
    · rw [div_le_one hpos]
      have h2 : 2 * matchesSum a b junk ≤ a.length + b.length := by omega
      exact_mod_cast h2

/-!  ## seg lemmas -/

omit [DecidableEq α] in
theorem seg_self (l : List α) : seg l 0 l.length = l := by
  unfold seg
  simp

omit [DecidableEq α] in
theorem seg_empty (l : List α) (i : Nat) : seg l i i = [] := by
  unfold seg
  simp

omit [DecidableEq α] in
theorem seg_append (l : List α) {i m k : Nat} (h1 : i ≤ m) (h2 : m ≤ k) :
    seg l i m ++ seg l m k = seg l i k := by
  unfold seg
  have e1 : k - i = (m - i) + (k - m) := by omega
  rw [e1, List.take_add]
  congr 1
  congr 1
  rw [List.drop_drop]
  congr 1
  omega

omit [DecidableEq α] in
theorem seg_getElem (l : List α) (i k n : Nat) :
    (seg l i k)[n]? = if n < k - i then l[i + n]? else none := by
  unfold seg
  by_cases h : n < k - i
  · rw [if_pos h, List.getElem?_take_of_lt h, List.getElem?_drop]
  · rw [if_neg h]
    apply List.getElem?_eq_none
    have := List.length_take (k - i) (l.drop i)
    omega

omit [DecidableEq α] in
/-- Matching slices have equal segments. -/
theorem sliceEq_seg {a b : List α} {i j n : Nat} (h : sliceEq a b i j n) :
    seg a i (i + n) = seg b j (j + n) := by
  apply List.ext_getElem?
  intro m
  rw [seg_getElem, seg_getElem]
  by_cases hm : m < n
  · have e1 : i + n - i = n := by omega
    have e2 : j + n - j = n := by omega
    rw [e1, e2, if_pos hm, if_pos hm]
    exact h m hm
  · have e1 : i + n - i = n := by omega
    have e2 : j + n - j = n := by omega
    rw [e1, e2, if_neg hm, if_neg hm]

/-!  ## Opcode well-formedness and coverage -/

/-- Facts about one opcode produced by `get_opcodes` within endpoint
`(x, y)`. -/
def OpWF (a b : List α) (x y : Nat) (op : Opc) : Prop :=
  op.i1 ≤ op.i2 ∧ op.j1 ≤ op.j2 ∧ op.i2 ≤ x ∧ op.j2 ≤ y ∧
  (op.tag = OTag.eq → op.i2 - op.i1 = op.j2 - op.j1 ∧
    sliceEq a b op.i1 op.j1 (op.i2 - op.i1)) ∧
  (op.tag = OTag.ins → op.i1 = op.i2) ∧
  (op.tag = OTag.del → op.j1 = op.j2)

omit [DecidableEq α] in
theorem opGo_wf {a b : List α} :
    ∀ {bs : List MB} {i j x y : Nat}, ChainB a b i j bs x y →
      ∀ op ∈ opGo i j bs, OpWF a b x y op := by
  intro bs
  induction bs with
  | nil =>
    intro i j x y h op hop
    simp [opGo] at hop
  | cons m rest ih =>
    intro i j x y h op hop
    cases h with
    | cons _ _ _ _ _ _ hi hj hs hrest =>
      have hxy := chainB_le hrest
      unfold opGo at hop
      simp only [List.mem_append, List.mem_cons] at hop
      rcases hop with hop | hop
      · rcases hop with hop | hop
        · -- tagPart
          by_cases hc1 : i < m.bi ∧ j < m.bj
          · rw [if_pos hc1] at hop
            simp at hop
            subst hop
            dsimp only [OpWF]
            exact ⟨by omega, by omega, by omega, by omega,
                   by intro h; simp at h, by intro h; simp at h, by intro h; simp at h⟩
          · rw [if_neg hc1] at hop
            by_cases hc2 : i < m.bi
            · rw [if_pos hc2] at hop
              simp at hop
              subst hop
              dsimp only [OpWF]
              have hjj : j = m.bj := by omega
              exact ⟨by omega, by omega, by omega, by omega,
                     by intro h; simp at h, by intro h; simp at h, by intro _; exact hjj⟩
            · rw [if_neg hc2] at hop
              by_cases hc3 : j < m.bj
              · rw [if_pos hc3] at hop
                simp at hop
                subst hop
                dsimp only [OpWF]
                have hii : i = m.bi := by omega
                exact ⟨by omega, by omega, by omega, by omega,
                       by intro h; simp at h, by intro _; exact hii, by intro h; simp at h⟩
              · rw [if_neg hc3] at hop
                simp at hop
        · -- eqPart
          by_cases hsz : m.sz ≠ 0
          · rw [if_pos hsz] at hop
            simp at hop
            subst hop
            dsimp only [OpWF]
            refine ⟨by omega, by omega, by omega, by omega, ?_,
                    by intro h; simp at h, by intro h; simp at h⟩
            intro _
            constructor
            · omega
            · have e : m.bi + m.sz - m.bi = m.sz := by omega
              show sliceEq a b m.bi m.bj (m.bi + m.sz - m.bi)
              rw [e]
              exact hs
          · rw [if_neg hsz] at hop
            simp at hop
      · exact ih hrest op hop

omit [DecidableEq α] in
/-- The old-side intervals of the opcodes tile `[i, x)`. -/
theorem opGo_oldCover {a b : List α} :
    ∀ {bs : List MB} {i j x y : Nat}, ChainB a b i j bs x y →
      ((opGo i j bs).map (fun op => seg a op.i1 op.i2)).flatten = seg a i x := by
  intro bs
  induction bs with
  | nil =>
    intro i j x y h
    cases h
    simp [opGo, seg_empty]
  | cons m rest ih =>
    intro i j x y h
    cases h with
    | cons _ _ _ _ _ _ hi hj hs hrest =>
      have hxy := chainB_le hrest
      unfold opGo
      rw [List.map_append, List.flatten_append, List.map_append, List.flatten_append]
      have htag : ((if i < m.bi ∧ j < m.bj then [⟨OTag.rep, i, m.bi, j, m.bj⟩]
          else if i < m.bi then [⟨OTag.del, i, m.bi, j, m.bj⟩]
          else if j < m.bj then [⟨OTag.ins, i, m.bi, j, m.bj⟩]
          else ([] : List Opc)).map (fun op => seg a op.i1 op.i2)).flatten =
          seg a i m.bi := by
        by_cases hc1 : i < m.bi ∧ j < m.bj
        · rw [if_pos hc1]; simp
        · rw [if_neg hc1]
          by_cases hc2 : i < m.bi
          · rw [if_pos hc2]; simp
          · rw [if_neg hc2]
            have hii : i = m.bi := by omega
            by_cases hc3 : j < m.bj
            · rw [if_pos hc3]; simp [hii, seg_empty]
            · rw [if_neg hc3]; simp [hii, seg_empty]
      rw [htag]
      have heq : ((if m.sz ≠ 0 then [⟨OTag.eq, m.bi, m.bi + m.sz, m.bj, m.bj + m.sz⟩]
          else ([] : List Opc)).map (fun op => seg a op.i1 op.i2)).flatten =
          seg a m.bi (m.bi + m.sz) := by
        by_cases hsz : m.sz ≠ 0
        · rw [if_pos hsz]; simp
        · rw [if_neg hsz]
          have : m.sz = 0 := by omega
          simp [this, seg_empty]
      rw [heq, ih hrest]
      rw [seg_append a (by omega) (by omega), seg_append a (by omega) (by omega)]

omit [DecidableEq α] in
/-- The new-side intervals of the opcodes tile `[j, y)`. -/
theorem opGo_newCover {a b : List α} :
    ∀ {bs : List MB} {i j x y : Nat}, ChainB a b i j bs x y →
      ((opGo i j bs).map (fun op => seg b op.j1 op.j2)).flatten = seg b j y := by
  intro bs
  induction bs with
  | nil =>
    intro i j x y h
    cases h
    simp [opGo, seg_empty]
  | cons m rest ih =>
    intro i j x y h
    cases h with
    | cons _ _ _ _ _ _ hi hj hs hrest =>
      have hxy := chainB_le hrest
      unfold opGo
      rw [List.map_append, List.flatten_append, List.map_append, List.flatten_append]
      have htag : ((if i < m.bi ∧ j < m.bj then [⟨OTag.rep, i, m.bi, j, m.bj⟩]
          else if i < m.bi then [⟨OTag.del, i, m.bi, j, m.bj⟩]
          else if j < m.bj then [⟨OTag.ins, i, m.bi, j, m.bj⟩]
          else ([] : List Opc)).map (fun op => seg b op.j1 op.j2)).flatten =
          seg b j m.bj := by
        by_cases hc1 : i < m.bi ∧ j < m.bj
        · rw [if_pos hc1]; simp
        · rw [if_neg hc1]
          by_cases hc2 : i < m.bi
          · rw [if_pos hc2]; simp
          · rw [if_neg hc2]
            by_cases hc3 : j < m.bj
            · rw [if_pos hc3]; simp
            · rw [if_neg hc3]
              have hjj : j = m.bj := by omega
              simp [hjj, seg_empty]
      rw [htag]
      have heq : ((if m.sz ≠ 0 then [⟨OTag.eq, m.bi, m.bi + m.sz, m.bj, m.bj + m.sz⟩]
          else ([] : List Opc)).map (fun op => seg b op.j1 op.j2)).flatten =
          seg b m.bj (m.bj + m.sz) := by
        by_cases hsz : m.sz ≠ 0
        · rw [if_pos hsz]; simp
        · rw [if_neg hsz]
          have : m.sz = 0 := by omega
          simp [this, seg_empty]
      rw [heq, ih hrest]
      rw [seg_append b (by omega) (by omega), seg_append b (by omega) (by omega)]

/-!  ## C9 / C10 : the two normalize_text stages -/

theorem joinLines_cons_cons (l : List Char) (m : List Char) (ls : List (List Char)) :
    joinLines ((c :: l) :: m :: ls) = c :: joinLines (l :: m :: ls) := by
  simp [joinLines]

theorem splitLines_ne_nil (t : List Char) : splitLines t ≠ [] := by
  cases t with
  | nil => simp [splitLines]
  | cons c rest =>
    unfold splitLines
    by_cases h : c = '\n'
    · rw [if_pos h]; simp
    · rw [if_neg h]
      cases splitLines rest <;> simp

theorem join_split (t : List Char) : joinLines (splitLines t) = t := by
  induction t with
  | nil => simp [splitLines, joinLines]
  | cons c rest ih =>
    unfold splitLines
    by_cases h : c = '\n'
    · rw [if_pos h]
      subst h
      cases hs : splitLines rest with
      | nil => exact absurd hs (splitLines_ne_nil rest)
      | cons l ls =>
        show joinLines ([] :: l :: ls) = '\n' :: rest
        rw [show joinLines ([] :: l :: ls) = '\n' :: joinLines (l :: ls) by simp [joinLines]]
        rw [← hs, ih]
    · rw [if_neg h]
      cases hs : splitLines rest with
      | nil => exact absurd hs (splitLines_ne_nil rest)
      | cons l ls =>
        cases ls with
        | nil =>
          show joinLines [c :: l] = c :: rest
          have : joinLines [c :: l] = c :: joinLines [l] := by simp [joinLines]
          rw [this, ← hs, ih]
        | cons m ms =>
          rw [joinLines_cons_cons]
          rw [← hs, ih]

theorem pageFilterLoop_eq_filter (lines : List (List Char)) :
    pageFilterLoop lines = lines.filter
      (fun ln => !(isPageLine (pyStrip ln) || isDigitRun14 (pyStrip ln))) := by
  induction lines with
  | nil => simp [pageFilterLoop]
  | cons ln rest ih =>
    unfold pageFilterLoop
    by_cases h1 : isPageLine (pyStrip ln)
    · rw [if_pos h1, ih]
      rw [List.filter_cons_of_neg (by simp [h1])]
    · rw [if_neg h1]
      by_cases h2 : isDigitRun14 (pyStrip ln)
      · rw [if_pos h2, ih]
        rw [List.filter_cons_of_neg (by simp [h2])]
      · rw [if_neg h2, ih]
        rw [List.filter_cons_of_pos (by simp [h1, h2])]

theorem splitLines_no_nl (t : List Char) : ∀ ln ∈ splitLines t, '\n' ∉ ln := by
  induction t with
  | nil => intro ln h; simp [splitLines] at h; simp [h]
  | cons c rest ih =>
    intro ln h
    unfold splitLines at h
    by_cases hc : c = '\n'
    · rw [if_pos hc] at h
      rcases List.mem_cons.mp h with h | h
      · simp [h]
      · exact ih ln h
    · rw [if_neg hc] at h
      cases hs : splitLines rest with
      | nil => exact absurd hs (splitLines_ne_nil rest)
      | cons l ls =>
        rw [hs] at h
        rcases List.mem_cons.mp h with h | h
        · subst h
          intro hmem
          rcases List.mem_cons.mp hmem with h | h
          · exact hc h.symm
          · exact ih l (by rw [hs]; exact List.mem_cons_self l ls) h
        · exact ih ln (by rw [hs]; exact List.mem_cons_of_mem l h)

theorem splitLines_singleton {l : List Char} (h : '\n' ∉ l) : splitLines l = [l] := by
  induction l with
  | nil => simp [splitLines]
  | cons c rest ih =>
    unfold splitLines
    have hc : c ≠ '\n' := fun hcc => h (by simp [hcc])
    rw [if_neg hc]
    rw [ih (fun hm => h (List.mem_cons_of_mem c hm))]

theorem splitLines_cons_ne (c : Char) (l : List Char) (hc : c ≠ '\n') :
    splitLines (c :: l) = match splitLines l with
      | [] => [[c]]
      | m :: ms => (c :: m) :: ms := by
  conv_lhs => unfold splitLines
  rw [if_neg hc]

theorem splitLines_append_nl {l : List Char} (t : List Char) (h : '\n' ∉ l) :
    splitLines (l ++ '\n' :: t) = l :: splitLines t := by
  induction l with
  | nil => simp [splitLines]
  | cons c rest ih =>
    have hc : c ≠ '\n' := fun hcc => h (by simp [hcc])
    show splitLines (c :: (rest ++ '\n' :: t)) = (c :: rest) :: splitLines t
    rw [splitLines_cons_ne c _ hc, ih (fun hm => h (List.mem_cons_of_mem c hm))]

theorem split_join (ls : List (List Char)) (h0 : ls ≠ [])
    (h1 : ∀ l ∈ ls, '\n' ∉ l) : splitLines (joinLines ls) = ls := by
  induction ls with
  | nil => exact absurd rfl h0
  | cons l rest ih =>
    cases rest with
    | nil =>
      show splitLines (joinLines [l]) = [l]
      simp only [joinLines]
      exact splitLines_singleton (h1 l (List.mem_cons_self l []))
    | cons m ms =>
      show splitLines (l ++ '\n' :: joinLines (m :: ms)) = l :: m :: ms
      rw [splitLines_append_nl _ (h1 l (List.mem_cons_self _ _))]
      rw [ih (by simp) (fun x hx => h1 x (List.mem_cons_of_mem l hx))]

/-- C10 : the page-number removal stage of `normalize_text` removes
exactly the lines whose stripped content matches the "Page N (of M)"
pattern or is a standalone run of one to four digits — the latter
regardless of whether the line is substantive content (the claim is the
filter characterization `removePageNumbersSpec`, and no surviving line
of the output is a digit-run or page-pattern line). -/
theorem c10_digit_lines_stripped :
    ∀ text : List Char, removePageNumbers text = removePageNumbersSpec text ∧
      ∀ ln ∈ splitLines (removePageNumbers text),
        isPageLine (pyStrip ln) = false ∧ isDigitRun14 (pyStrip ln) = false := by
  intro text
  have heq : removePageNumbers text = removePageNumbersSpec text := by
    unfold removePageNumbers removePageNumbersSpec
    rw [pageFilterLoop_eq_filter]
  refine ⟨heq, ?_⟩
  intro ln hln
  unfold removePageNumbers at hln
  rw [pageFilterLoop_eq_filter] at hln
  set kept := (splitLines text).filter
      (fun ln => !(isPageLine (pyStrip ln) || isDigitRun14 (pyStrip ln))) with hkept
  by_cases h0 : kept = []
  · rw [h0] at hln
    simp only [joinLines, splitLines] at hln
    have h := List.mem_singleton.mp hln
    subst h
    exact ⟨by decide, by decide⟩
  · have hnl : ∀ l ∈ kept, '\n' ∉ l := by
      intro l hl
      exact splitLines_no_nl text l (List.mem_of_mem_filter (hkept ▸ hl))
    rw [split_join kept h0 hnl] at hln
    have hf := List.of_mem_filter (hkept ▸ hln)
    simp only [Bool.not_eq_true', Bool.or_eq_false_iff] at hf
    exact hf

/-- C9 (amended) : the generic repeated-line removal stage behaves as
the claim describes — removing exactly the 3..80-character stripped
lines occurring on at least `max(5, 10%)` of the non-blank lines —
only when the document has at least 50 non-blank lines; on smaller

documents the stage is the identity. -/
theorem c9_repeated_lines_gated :
    ∀ text : List Char, removeRepeatedStep text =
      if 50 ≤ (nonBlankStripped text).length then removeRepeatedClaim text
      else text := by
  intro text
  unfold removeRepeatedStep
  dsimp only
  by_cases h50 : 50 ≤ (nonBlankStripped text).length
  · rw [if_pos h50, if_pos h50]
    by_cases hany : (nonBlankStripped text).any
        (fun ln => isRepeatedLine (nonBlankStripped text) ln)
    · rw [if_pos hany]
      rfl
    · rw [if_neg hany]
      have hall : ∀ l ∈ nonBlankStripped text,
          isRepeatedLine (nonBlankStripped text) l = false := by
        intro l hl
        by_contra hcon
        have : isRepeatedLine (nonBlankStripped text) l = true := by
          cases hv : isRepeatedLine (nonBlankStripped text) l
          · exact absurd hv hcon
          · rfl
        exact hany (List.any_eq_true.mpr ⟨l, hl, this⟩)
      unfold removeRepeatedClaim
      have hkeep : ∀ ln ∈ splitLines text,
          (!isRepeatedLine (nonBlankStripped text) (pyStrip ln)) = true := by
        intro ln hln
        by_cases hempty : (pyStrip ln).isEmpty
        · have he : pyStrip ln = [] := by
            cases hpl : pyStrip ln
            · rfl
            · rw [hpl] at hempty; simp [List.isEmpty] at hempty
          rw [he]
          simp [isRepeatedLine]
        · have hmem : pyStrip ln ∈ nonBlankStripped text := by
            unfold nonBlankStripped
            apply List.mem_filter.mpr
            refine ⟨List.mem_map.mpr ⟨ln, hln, rfl⟩, by simpa using hempty⟩
          rw [hall (pyStrip ln) hmem]
          rfl
      rw [List.filter_eq_self.mpr hkeep, join_split]
  · rw [if_neg h50, if_neg h50]

/-- C9 (counterexample) : a document of 10 non-blank lines in which the
line "foo" is 3 characters long and occurs 6 times — at least
`max(5, 10% of 10)` — yet survives the stage untouched, because the
stage is inert below 50 non-blank lines; the claim as stated requires
the line to be removed. -/
theorem c9_counterexample :
    ("foo".data ∈ splitLines (removeRepeatedStep (joinLines
        (List.replicate 6 "foo".data ++ List.replicate 4 "barbar".data)))) ∧
    isRepeatedLine
      (nonBlankStripped (joinLines
        (List.replicate 6 "foo".data ++ List.replicate 4 "barbar".data)))
      (pyStrip "foo".data) = true := by
  constructor
  · decide
  · decide

/-- Witness for C10 at a concrete document: the substantive line
"item 4" survives while the standalone "12" and "Page 2" lines are
removed. -/
theorem c10_witness :
    removePageNumbers "item 4\n12\nPage 2".data =
        removePageNumbersSpec "item 4\n12\nPage 2".data ∧
      (isPageLine (pyStrip "item 4".data) = false ∧
       isDigitRun14 (pyStrip "item 4".data) = false) :=
  ⟨(c10_digit_lines_stripped "item 4\n12\nPage 2".data).1,
   (c10_digit_lines_stripped "item 4\n12\nPage 2".data).2 "item 4".data (by decide)⟩

/-!  ## C7 / C8 : the Chunker -/

theorem anchorScan_sound (text : List Char) :
    ∀ (n : Nat) (l : List Char) (p : Nat) (ls : Bool), l.length < n →
      l = text.drop p →
      (ls = true ↔ (p = 0 ∨ text[p - 1]? = some '\n')) →
      ∀ q ∈ anchorScan n p l ls,
        (q = 0 ∨ text[q - 1]? = some '\n') ∧ (matchAnchor (text.drop q)).isSome := by
  intro n
  induction n with
  | zero =>
    intro l p ls hn hl hls q hq
    omega
  | succ n ih =>
    intro l p ls hn hl hls q hq
    cases l with
    | nil => simp [anchorScan] at hq
    | cons c rest =>
      have hc0 : text[p]? = some c := by
        have : (text.drop p)[0]? = text[p + 0]? := List.getElem?_drop text p 0
        rw [← hl] at this
        simpa using this.symm
      unfold anchorScan at hq
      by_cases hlsv : ls = true
      · rw [if_pos hlsv] at hq
        cases hm : matchAnchor (c :: rest) with
        | some k =>
          rw [hm] at hq
          simp only [List.mem_cons] at hq
          rcases hq with hq | hq
          · subst hq
            refine ⟨hls.mp hlsv, ?_⟩
            rw [← hl, hm]
            rfl
          · have hk1 : 1 ≤ k := matchAnchor_pos hm
            have hldrop : (c :: rest).drop k = text.drop (p + k) := by
              rw [hl, List.drop_drop]
            have hlen : ((c :: rest).drop k).length < n := by
              have := List.length_drop k (c :: rest)
              simp only [List.length_cons] at this hn ⊢
              omega
            have hiff : ((match (c :: rest)[k - 1]? with
                | some d => d = '\n'
                | none => false) : Bool) = true ↔
                (p + k = 0 ∨ text[p + k - 1]? = some '\n') := by
              have hidx : (c :: rest)[k - 1]? = text[p + k - 1]? := by
                rw [hl, List.getElem?_drop]
                congr 1
                omega
              rw [hidx]
              cases hd : text[p + k - 1]? with
              | some d =>
                simp only []
                constructor
                · intro h
                  right
                  rw [of_decide_eq_true h]
                · intro h
                  rcases h with h | h
                  · omega
                  · rw [show d = '\n' from (Option.some.injEq _ _ ▸ h : _)] at hd ⊢
                    · exact decide_eq_true rfl
                    
              | none =>
                simp only []
                constructor
                · intro h; exact absurd h (by simp)
                · intro h
                  rcases h with h | h
                  · omega
                  · exact absurd h (by simp)
            exact ih ((c :: rest).drop k) (p + k) _ hlen hldrop hiff q hq
        | none =>
          rw [hm] at hq
          have hrest : rest = text.drop (p + 1) := by
            have : (c :: rest).drop 1 = text.drop (p + 1) := by
              rw [hl, List.drop_drop]
            simpa using this
          refine ih rest (p + 1) _ (by simp at hn ⊢; omega) hrest ?_ q hq
          constructor
          · intro h
            right
            have : c = '\n' := of_decide_eq_true h
            simpa [this] using hc0
          · intro h
            rcases h with h | h
            · omega
            · simp only [Nat.add_sub_cancel] at h
              rw [hc0] at h
              have : c = '\n' := by injection h
              exact decide_eq_true this
      · rw [if_neg hlsv] at hq
        have hrest : rest = text.drop (p + 1) := by
          have : (c :: rest).drop 1 = text.drop (p + 1) := by
            rw [hl, List.drop_drop]
          simpa using this
        refine ih rest (p + 1) _ (by simp at hn ⊢; omega) hrest ?_ q hq
        constructor
        · intro h
          right
          have : c = '\n' := of_decide_eq_true h
          simpa [this] using hc0
        · intro h
          rcases h with h | h
          · omega
          · simp only [Nat.add_sub_cancel] at h
            rw [hc0] at h
            have : c = '\n' := by injection h
            exact decide_eq_true this

omit [DecidableEq α] in
theorem takeWhile_dropWhile_length (p : α → Bool) (l : List α) :
    (l.takeWhile p).length + (l.dropWhile p).length = l.length := by
  conv_rhs => rw [← List.takeWhile_append_dropWhile p l]
  rw [List.length_append]

omit [DecidableEq α] in
theorem takeWhile_len_le (p : α → Bool) (l : List α) :
    (l.takeWhile p).length ≤ l.length := by
  have := takeWhile_dropWhile_length p l
  omega

theorem wsDotSplit_lt {r : List Char} :
    ∀ {w k : Nat}, wsDotSplit r w = some k → 1 ≤ k ∧ k < r.length := by
  intro w
  induction w with
  | zero => intro k h; simp [wsDotSplit] at h
  | succ w ih =>
    intro k h
    unfold wsDotSplit at h
    cases hr : r[w + 1]? with
    | some c =>
      rw [hr] at h
      dsimp only at h
      by_cases hc : c ≠ '\n'
      · rw [if_pos hc] at h
        have hk : k = w + 1 := by injection h with h2; omega
        subst hk
        have : w + 1 < r.length := by
          by_contra hcon
          rw [List.getElem?_eq_none (by omega)] at hr
          exact absurd hr (by simp)
        omega
      · rw [if_neg hc] at h
        exact ih h
    | none =>
      rw [hr] at h
      exact ih h

theorem matchRoman_le {l : List Char} {k : Nat} (h : matchRoman l = some k) :
    k ≤ l.length := by
  unfold matchRoman at h
  simp only at h
  split at h
  · exact absurd h (by simp)
  · split at h
    · rename_i r2 hrom r3 hr2
      split at h
      · exact absurd h (by simp)
      · split at h
        · exact absurd h (by simp)
        · rename_i kk hws
          simp only [Option.some.injEq] at h
          have h1 := takeWhile_dropWhile_length pySpace l
          have h2 := takeWhile_dropWhile_length isRomanChar (l.dropWhile pySpace)
          have h3 : ((l.dropWhile pySpace).dropWhile isRomanChar).length = r3.length + 1 := by
            rw [hr2]
            simp
          have h4 := wsDotSplit_lt hws
          have h5 : (((r3.drop kk).takeWhile (fun c => c ≠ '\n')).length) ≤
              (r3.drop kk).length := takeWhile_len_le _ _
          have h6 : (r3.drop kk).length = r3.length - kk := List.length_drop kk r3
          omega
    · exact absurd h (by simp)

theorem matchNumbered_le {l : List Char} {k : Nat} (h : matchNumbered l = some k) :
    k ≤ l.length := by
  unfold matchNumbered at h
  simp only at h
  split at h
  · exact absurd h (by simp)
  · split at h
    · rename_i r2 hd r3 hr2
      split at h
      · exact absurd h (by simp)
      · simp only [Option.some.injEq] at h
        have h1 := takeWhile_dropWhile_length pySpace l
        have h2 := takeWhile_dropWhile_length pyDigit (l.dropWhile pySpace)
        have h3 : ((l.dropWhile pySpace).dropWhile pyDigit).length = r3.length + 1 := by
          rw [hr2]
          simp
        have h5 : (r3.takeWhile pySpace).length ≤ r3.length := takeWhile_len_le _ _
        omega
    · exact absurd h (by simp)

theorem matchAnchor_le {l : List Char} {k : Nat} (h : matchAnchor l = some k) :
    k ≤ l.length := by
  unfold matchAnchor at h
  cases hr : matchRoman l with
  | some m =>
    rw [hr] at h
    injection h with h2
    subst h2
    exact matchRoman_le hr
  | none =>
    rw [hr] at h
    exact matchNumbered_le h

theorem anchorScan_bounds :
    ∀ (n : Nat) (l : List Char) (p : Nat) (ls : Bool), l.length < n →
      List.Chain' (· < ·) (anchorScan n p l ls) ∧
      ∀ q ∈ anchorScan n p l ls, p ≤ q ∧ q < p + l.length := by
  intro n
  induction n with
  | zero =>
    intro l p ls hn
    omega
  | succ n ih =>
    intro l p ls hn
    cases l with
    | nil => simp [anchorScan]
    | cons c rest =>
      unfold anchorScan
      by_cases hlsv : ls = true
      · rw [if_pos hlsv]
        cases hm : matchAnchor (c :: rest) with
        | some k =>
          have hk1 : 1 ≤ k := matchAnchor_pos hm
          have hmono := matchAnchor_le hm
          have hlen : ((c :: rest).drop k).length < n := by
            have := List.length_drop k (c :: rest)
            simp only [List.length_cons] at this hn ⊢
            omega
          obtain ⟨hchain, hbnd⟩ := ih ((c :: rest).drop k) (p + k) _ hlen
          constructor
          · rw [List.chain'_cons']
            refine ⟨?_, hchain⟩
            intro b hb
            have hmem : b ∈ anchorScan n (p + k) ((c :: rest).drop k) _ :=
              List.mem_of_mem_head? hb
            have := hbnd b hmem
            omega
          · intro q hq
            rcases List.mem_cons.mp hq with hq | hq
            · subst hq
              simp only [List.length_cons]
              omega
            · have := hbnd q hq
              have hdl := List.length_drop k (c :: rest)
              simp only [List.length_cons] at hdl ⊢
              omega
        | none =>
          obtain ⟨hchain, hbnd⟩ := ih rest (p + 1) (c = '\n') (by simp at hn ⊢; omega)
          refine ⟨hchain, ?_⟩
          intro q hq
          have := hbnd q hq
          simp only [List.length_cons]
          omega
      · rw [if_neg hlsv]
        obtain ⟨hchain, hbnd⟩ := ih rest (p + 1) (c = '\n') (by simp at hn ⊢; omega)
        refine ⟨hchain, ?_⟩
        intro q hq
        have := hbnd q hq
        simp only [List.length_cons]
        omega

theorem segs_join (text : List Char) :
    ∀ (ss : List Nat) (s : Nat), List.Chain' (· < ·) (s :: ss) →
      (∀ q ∈ s :: ss, q ≤ text.length) →
      (((s :: ss).zip (ss ++ [text.length])).map
        (fun sb => seg text sb.1 sb.2)).flatten = seg text s text.length := by
  intro ss
  induction ss with
  | nil =>
    intro s _ _
    simp [List.zip]
  | cons s2 ss2 ih =>
    intro s hchain hmem
    have hlt : s < s2 := (List.chain'_cons.mp hchain).1
    have hchain2 : List.Chain' (· < ·) (s2 :: ss2) := (List.chain'_cons.mp hchain).2
    have hmem2 : ∀ q ∈ s2 :: ss2, q ≤ text.length := by
      intro q hq
      exact hmem q (List.mem_cons_of_mem s hq)
    show ((((s, s2) :: (s2 :: ss2).zip (ss2 ++ [text.length])).map
      (fun sb => seg text sb.1 sb.2)).flatten) = seg text s text.length
    rw [List.map_cons, List.flatten_cons, ih s2 hchain2 hmem2]
    exact seg_append text (le_of_lt hlt)
      (hmem s2 (List.mem_cons_of_mem s (List.mem_cons_self s2 ss2)))

theorem stripNl_decomp (r : List Char) :
    ∃ u v, r = List.replicate u '\n' ++ stripNl r ++ List.replicate v '\n' := by
  refine ⟨(r.takeWhile (· = '\n')).length,
          ((r.dropWhile (· = '\n')).reverse.takeWhile (· = '\n')).length, ?_⟩
  have h1 : r.takeWhile (· = '\n') =
      List.replicate (r.takeWhile (· = '\n')).length '\n' := by
    apply List.eq_replicate_of_mem
    intro b hb
    have := List.mem_takeWhile_imp hb
    exact of_decide_eq_true this
  set t := r.dropWhile (· = '\n') with ht
  have h2 : t.reverse.takeWhile (· = '\n') =
      List.replicate (t.reverse.takeWhile (· = '\n')).length '\n' := by
    apply List.eq_replicate_of_mem
    intro b hb
    have := List.mem_takeWhile_imp hb
    exact of_decide_eq_true this
  have h3 : t = stripNl r ++ List.replicate
      (t.reverse.takeWhile (· = '\n')).length '\n' := by
    have h4 : t.reverse = t.reverse.takeWhile (· = '\n') ++
        t.reverse.dropWhile (· = '\n') := (List.takeWhile_append_dropWhile _ _).symm
    have h5 : t = (t.reverse.dropWhile (· = '\n')).reverse ++
        (t.reverse.takeWhile (· = '\n')).reverse := by
      conv_lhs => rw [← List.reverse_reverse t, h4]
      rw [List.reverse_append]
    conv_lhs => rw [h5]
    congr 1
    conv_lhs => rw [h2]
    exact List.reverse_replicate _ _
  conv_lhs => rw [← List.takeWhile_append_dropWhile (fun c => decide (c = '\n')) r,
    ← ht, h1, h3]
  rw [List.append_assoc]

/-- C7 (amended) : every chunk boundary produced by the Chunker lies at a
line start and matches one of exactly two patterns — the Roman-numeral
heading `\s*[IVXLCDM]+\.\s+.+$` or the numbered-paragraph marker
`\s*\d+\.\s+` — located as leftmost non-overlapping regex matches; the
all-caps-heading and "COUNT <roman>" patterns named by the claim are not
boundary patterns. -/
theorem c7_two_boundary_patterns :
    ∀ (text : List Char) (q : Nat), q ∈ anchorStarts text →
      (q = 0 ∨ text[q - 1]? = some '\n') ∧
      ((matchRoman (text.drop q)).isSome ∨ (matchNumbered (text.drop q)).isSome) := by
  intro text q hq
  have hs := anchorScan_sound text (text.length + 1) text 0 true (by omega)
    (by simp) (by simp) q hq
  refine ⟨hs.1, ?_⟩
  have h2 := hs.2
  unfold matchAnchor at h2
  cases hr : matchRoman (text.drop q) with
  | some m => left; simp [hr]
  | none =>
    rw [hr] at h2
    right
    exact h2

/-- Witness for C7 at a concrete boundary. -/
theorem c7_witness :
    (0 ∈ anchorStarts "1. x".data) ∧
      ((0 = 0 ∨ "1. x".data[0 - 1]? = some '\n') ∧
       ((matchRoman ("1. x".data.drop 0)).isSome ∨
        (matchNumbered ("1. x".data.drop 0)).isSome)) :=
  ⟨by decide, c7_two_boundary_patterns "1. x".data 0 (by decide)⟩

/-- C7 (counterexample) : the all-caps line "DEFINITIONS" — an all-caps
heading in the claim's sense — does not start a new chunk: the document
splits as a single chunk. -/
theorem c7_counterexample :
    (splitByAnchors "1. intro text\nDEFINITIONS\nmore".data).length = 1 ∧
    "DEFINITIONS".data ∈ splitLines "1. intro text\nDEFINITIONS\nmore".data ∧
    ("DEFINITIONS".data.any (fun c => c.isUpper) &&
     "DEFINITIONS".data.all (fun c => !c.isLower)) = true := by
  refine ⟨by decide, by decide, by decide⟩

/-- C8 (amended) : when no anchor matches, the Chunker returns the whole
document under the DOCUMENT anchor; otherwise the chunk bodies are the
inter-anchor slices of the document from the FIRST anchor onward with
newlines trimmed at both ends — any text before the first anchor (which
need not be whitespace) is dropped, and the trimming removes only
newlines. -/
theorem c8_reconstruction :
    ∀ text : List Char,
      (anchorStarts text = [] → splitByAnchors text = [("DOCUMENT".data, text)]) ∧
      (∀ s ss, anchorStarts text = s :: ss →
        (splitByAnchors text).map (fun c => c.2) =
          ((s :: ss).zip (ss ++ [text.length])).map
            (fun sb => stripNl (seg text sb.1 sb.2)) ∧
        seg text 0 s ++
          (((s :: ss).zip (ss ++ [text.length])).map
            (fun sb => seg text sb.1 sb.2)).flatten = text ∧
        (∀ r : List Char,
          ∃ u v, r = List.replicate u '\n' ++ stripNl r ++ List.replicate v '\n')) := by
  intro text
  constructor
  · intro h
    unfold splitByAnchors
    rw [h]
  · intro s ss h
    obtain ⟨hchain, hbnd⟩ := anchorScan_bounds (text.length + 1) text 0 true (by omega)
    rw [show anchorScan (text.length + 1) 0 text true = anchorStarts text from rfl, h]
      at hchain hbnd
    have hmem : ∀ q ∈ s :: ss, q ≤ text.length := by
      intro q hq
      have := hbnd q hq
      omega
    refine ⟨?_, ?_, fun r => stripNl_decomp r⟩
    · unfold splitByAnchors
      rw [h]
      simp [List.map_map]
    · rw [segs_join text ss s hchain hmem]
      rw [seg_append text (Nat.zero_le s) (hmem s (List.mem_cons_self s ss))]
      exact seg_self text

/-- Witness for C8 at a concrete two-anchor document. -/
theorem c8_witness :
    (anchorStarts "1. x\n2. y".data = [0, 5]) ∧
      ((splitByAnchors "1. x\n2. y".data).map (fun c => c.2) =
        (([0, 5] : List Nat).zip ([5] ++ ["1. x\n2. y".data.length])).map
          (fun sb => stripNl (seg "1. x\n2. y".data sb.1 sb.2)) ∧
      seg "1. x\n2. y".data 0 0 ++
        ((([0, 5] : List Nat).zip ([5] ++ ["1. x\n2. y".data.length])).map
          (fun sb => seg "1. x\n2. y".data sb.1 sb.2)).flatten = "1. x\n2. y".data ∧
      (∀ r : List Char,
        ∃ u v, r = List.replicate u '\n' ++ stripNl r ++ List.replicate v '\n')) :=
  ⟨by decide, (c8_reconstruction "1. x\n2. y".data).2 0 [5] (by decide)⟩

/-- C8 (counterexample) : chunking drops the non-whitespace text before
the first anchor: for "lost\n1. x" the concatenated chunk bodies no
longer contain the word "lost". -/
theorem c8_counterexample :
    noWs (((splitByAnchors "lost\n1. x".data).map (fun c => c.2)).flatten) ≠
      noWs "lost\n1. x".data := by
  decide

/-!  ## C2 : inline differ round-trip -/

theorem pyWord_not_space {c : Char} (h : pyWord c = true) : pySpace c = false := by
  cases hv : pySpace c
  · rfl
  · exfalso
    unfold pySpace at hv
    simp only [Bool.or_eq_true, decide_eq_true_eq] at hv
    unfold pyWord at h
    simp only [Bool.or_eq_true, decide_eq_true_eq] at h
    rcases hv with ((((((h1 | h1) | h1) | h1) | h1) | h1) | h1) | h1 <;>
      subst h1 <;> revert h <;> decide

theorem noWs_append (s t : List Char) : noWs (s ++ t) = noWs s ++ noWs t := by
  unfold noWs
  exact List.filter_append _ _

theorem noWs_all_keep {s : List Char} (h : ∀ c ∈ s, pySpace c = false) :
    noWs s = s := by
  unfold noWs
  apply List.filter_eq_self.mpr
  intro c hc
  simp [h c hc]

theorem tokenizeF_props :
    ∀ (f : Nat) (l : List Char), l.length < f →
      (tokenizeF f l).flatten = noWs l ∧
      ∀ t ∈ tokenizeF f l, t ≠ [] ∧ ∀ c ∈ t, pySpace c = false := by
  intro f
  induction f with
  | zero => intro l hl; omega
  | succ f ih =>
    intro l hl
    cases l with
    | nil => simp [tokenizeF, noWs]
    | cons c rest =>
      simp only [List.length_cons] at hl
      unfold tokenizeF
      by_cases hsp : pySpace c
      · rw [if_pos hsp]
        obtain ⟨ihf, ihm⟩ := ih rest (by omega)
        refine ⟨?_, ihm⟩
        rw [ihf]
        unfold noWs
        rw [List.filter_cons_of_neg (by simp [hsp])]
      · rw [if_neg hsp]
        by_cases hw : pyWord c
        · rw [if_pos hw]
          have hdl := dropWhile_length_le pyWord rest
          obtain ⟨ihf, ihm⟩ := ih (rest.dropWhile pyWord) (by omega)
          have htw : ∀ d ∈ rest.takeWhile pyWord, pySpace d = false := by
            intro d hd
            exact pyWord_not_space (List.mem_takeWhile_imp hd)
          constructor
          · show (c :: rest.takeWhile pyWord) ++ (tokenizeF f (rest.dropWhile pyWord)).flatten
              = noWs (c :: rest)
            rw [ihf]
            have : noWs (c :: rest) = c :: noWs rest := by
              unfold noWs
              rw [List.filter_cons_of_pos (by simp [Bool.not_eq_true', hsp])]
            rw [this]
            have hsplit : noWs rest = rest.takeWhile pyWord ++ noWs (rest.dropWhile pyWord) := by
              conv_lhs => rw [← List.takeWhile_append_dropWhile pyWord rest]
              rw [noWs_append, noWs_all_keep htw]
            rw [hsplit]
            simp
          · intro t ht
            rcases List.mem_cons.mp ht with ht | ht
            · subst ht
              refine ⟨by simp, ?_⟩
              intro d hd
              rcases List.mem_cons.mp hd with hd | hd
              · subst hd
                simpa [Bool.not_eq_true] using hsp
              · exact htw d hd
            · exact ihm t ht
        · rw [if_neg hw]
          obtain ⟨ihf, ihm⟩ := ih rest (by omega)
          constructor
          · show [c] ++ (tokenizeF f rest).flatten = noWs (c :: rest)
            rw [ihf]
            unfold noWs
            rw [List.filter_cons_of_pos (by simp [Bool.not_eq_true', hsp])]
            rfl
          · intro t ht
            rcases List.mem_cons.mp ht with ht | ht
            · subst ht
              refine ⟨by simp, ?_⟩
              intro d hd
              rcases List.mem_cons.mp hd with hd | hd
              · subst hd
                simpa [Bool.not_eq_true] using hsp
              · simp at hd
            · exact ihm t ht

theorem tokenize_flatten (l : List Char) : (tokenize l).flatten = noWs l :=
  (tokenizeF_props (l.length + 1) l (by omega)).1

theorem tokenize_mem {l : List Char} :
    ∀ t ∈ tokenize l, t ≠ [] ∧ ∀ c ∈ t, pySpace c = false :=
  (tokenizeF_props (l.length + 1) l (by omega)).2

theorem emitGo_noWs (ts : List (List Char)) :
    ∀ prev, (∀ t ∈ ts, ∀ c ∈ t, pySpace c = false) →
      noWs (emitGo prev ts) = ts.flatten := by
  induction ts with
  | nil => intro prev _; simp [emitGo, noWs]
  | cons t ts ih =>
    intro prev hts
    unfold emitGo
    rw [noWs_append, noWs_append]
    have h1 : noWs t = t :=
      noWs_all_keep (hts t (List.mem_cons_self t ts))
    have h2 : noWs (emitGo t ts) = ts.flatten :=
      ih t (fun u hu => hts u (List.mem_cons_of_mem t hu))
    rw [h1, h2]
    have h3 : ∀ b : Bool, noWs (if b then [' '] else []) = [] := by
      intro b
      cases b <;> simp [noWs, pySpace]
    rw [h3]
    simp

theorem emitText_noWs {ts : List (List Char)}
    (h : ∀ t ∈ ts, ∀ c ∈ t, pySpace c = false) :
    noWs (emitText ts) = ts.flatten := by
  cases ts with
  | nil => simp [emitText, noWs]
  | cons t ts =>
    unfold emitText
    rw [noWs_append, noWs_all_keep (h t (List.mem_cons_self t ts)),
      emitGo_noWs ts t (fun u hu => h u (List.mem_cons_of_mem t hu))]
    rfl

theorem noWs_pyStrip (d : List Char) : noWs (pyStrip d) = noWs d := by
  have hdw : ∀ l : List Char, noWs (l.dropWhile pySpace) = noWs l := by
    intro l
    induction l with
    | nil => rfl
    | cons c rest ih =>
      by_cases hc : pySpace c
      · rw [List.dropWhile_cons_of_pos hc, ih]
        unfold noWs
        rw [List.filter_cons_of_neg (by simp [hc])]
      · rw [List.dropWhile_cons_of_neg (by simpa using hc)]
  have hrev : ∀ l : List Char, noWs l.reverse = (noWs l).reverse := by
    intro l
    unfold noWs
    exact List.filter_reverse _ _
  unfold pyStrip
  rw [hrev, hdw, hrev, List.reverse_reverse, hdw]

theorem pyStrip_empty_noWs {d : List Char} (h : (pyStrip d).isEmpty = true) :
    noWs d = [] := by
  have he : pyStrip d = [] := by
    cases hv : pyStrip d
    · rfl
    · rw [hv] at h; simp [List.isEmpty] at h
  rw [← noWs_pyStrip, he]
  rfl

omit [DecidableEq α] in
theorem mem_seg {l : List α} {i k : Nat} {t : α} (h : t ∈ seg l i k) : t ∈ l := by
  unfold seg at h
  exact (List.Sublist.subset ((List.take_sublist _ _).trans (List.drop_sublist _ _))) h

theorem spanText_append (p : DK → Bool) (s t : List Span) :
    spanText p (s ++ t) = spanText p s ++ spanText p t := by
  unfold spanText
  rw [List.filter_append, List.flatMap_append]

theorem spanText_flatMap {β : Type} (p : DK → Bool) (f : β → List Span)
    (l : List β) :
    spanText p (l.flatMap f) = (l.map (fun x => spanText p (f x))).flatten := by
  induction l with
  | nil => rfl
  | cons x xs ih =>
    rw [List.flatMap_cons, spanText_append, ih, List.map_cons, List.flatten_cons]

theorem noWs_flatten (ll : List (List Char)) :
    noWs ll.flatten = (ll.map noWs).flatten := by
  induction ll with
  | nil => rfl
  | cons l ls ih =>
    rw [List.flatten_cons, noWs_append, ih, List.map_cons, List.flatten_cons]

theorem spanText_single (p : DK → Bool) (s : Span) :
    spanText p [s] = if p s.k then s.tx else [] := by
  unfold spanText
  cases hv : p s.k <;> simp [hv]

omit [DecidableEq α] in
theorem flatten_map_flatten {β : Type} (F : β → List (List α)) (l : List β) :
    (l.map (fun x => (F x).flatten)).flatten = ((l.map F).flatten).flatten := by
  induction l with
  | nil => rfl
  | cons x xs ih =>
    simp only [List.map_cons, List.flatten_cons, List.flatten_append, ih]

theorem tokSpan_sides (ot nt : List (List Char)) (op : Opc)
    (hwf : OpWF ot nt ot.length nt.length op)
    (hot : ∀ t ∈ ot, ∀ c ∈ t, pySpace c = false)
    (hnt : ∀ t ∈ nt, ∀ c ∈ t, pySpace c = false) :
    noWs (spanText (fun k => !decide (k = DK.ins)) (tokSpanOf ot nt op)) =
      (seg ot op.i1 op.i2).flatten ∧
    noWs (spanText (fun k => !decide (k = DK.del)) (tokSpanOf ot nt op)) =
      (seg nt op.j1 op.j2).flatten := by
  obtain ⟨h12, hj12, hx, hy, heq, hins, hdel⟩ := hwf
  have hsegot : ∀ t ∈ seg ot op.i1 op.i2, ∀ c ∈ t, pySpace c = false :=
    fun t ht => hot t (mem_seg ht)
  have hsegnt : ∀ t ∈ seg nt op.j1 op.j2, ∀ c ∈ t, pySpace c = false :=
    fun t ht => hnt t (mem_seg ht)
  have hemito : noWs (emitText (seg ot op.i1 op.i2)) = (seg ot op.i1 op.i2).flatten :=
    emitText_noWs hsegot
  have hemitn : noWs (emitText (seg nt op.j1 op.j2)) = (seg nt op.j1 op.j2).flatten :=
    emitText_noWs hsegnt
  unfold tokSpanOf
  cases htag : op.tag with
  | eq =>
    have hsegeq : seg ot op.i1 op.i2 = seg nt op.j1 op.j2 := by
      obtain ⟨hlen, hsl⟩ := heq htag
      have h1 := sliceEq_seg hsl
      have e1 : op.i1 + (op.i2 - op.i1) = op.i2 := by omega
      have e2 : op.j1 + (op.i2 - op.i1) = op.j2 := by omega
      rw [e1, e2] at h1
      exact h1
    constructor
    · rw [spanText_single]
      simp only [show (!decide (DK.eq = DK.ins)) = true by decide, if_pos]
      exact hemito
    · rw [spanText_single]
      simp only [show (!decide (DK.eq = DK.del)) = true by decide, if_pos]
      rw [hemito, hsegeq]
  | del =>
    have hjj : op.j1 = op.j2 := hdel htag
    by_cases hdrop : (pyStrip (emitText (seg ot op.i1 op.i2))).isEmpty
    · rw [if_pos hdrop]
      have : (seg ot op.i1 op.i2).flatten = [] := by
        rw [← hemito]
        exact pyStrip_empty_noWs hdrop
      constructor
      · rw [this]; rfl
      · rw [← hjj, seg_empty]; rfl
    · rw [if_neg hdrop]
      constructor
      · rw [spanText_single]
        simp only [show (!decide (DK.del = DK.ins)) = true by decide, if_pos]
        exact hemito
      · rw [spanText_single]
        simp only [show (!decide (DK.del = DK.del)) = false by decide]
        rw [if_neg (by simp), ← hjj, seg_empty]
        rfl
  | ins =>
    have hii : op.i1 = op.i2 := hins htag
    by_cases hdrop : (pyStrip (emitText (seg nt op.j1 op.j2))).isEmpty
    · rw [if_pos hdrop]
      have : (seg nt op.j1 op.j2).flatten = [] := by
        rw [← hemitn]
        exact pyStrip_empty_noWs hdrop
      constructor
      · rw [← hii, seg_empty]; rfl
      · rw [this]; rfl
    · rw [if_neg hdrop]
      constructor
      · rw [spanText_single]
        simp only [show (!decide (DK.ins = DK.ins)) = false by decide]
        rw [if_neg (by simp), ← hii, seg_empty]
        rfl
      · rw [spanText_single]
        simp only [show (!decide (DK.ins = DK.del)) = true by decide, if_pos]
        exact hemitn
  | rep =>
    rw [spanText_append, spanText_append, noWs_append, noWs_append]
    have hdelOld : noWs (spanText (fun k => !decide (k = DK.ins))
        (if (pyStrip (emitText (seg ot op.i1 op.i2))).isEmpty then []
         else [⟨DK.del, emitText (seg ot op.i1 op.i2)⟩])) =
        (seg ot op.i1 op.i2).flatten := by
      by_cases hdrop : (pyStrip (emitText (seg ot op.i1 op.i2))).isEmpty
      · rw [if_pos hdrop]
        have : (seg ot op.i1 op.i2).flatten = [] := by
          rw [← hemito]
          exact pyStrip_empty_noWs hdrop
        rw [this]; rfl
      · rw [if_neg hdrop, spanText_single]
        simp only [show (!decide (DK.del = DK.ins)) = true by decide, if_pos]
        exact hemito
    have hdelNew : noWs (spanText (fun k => !decide (k = DK.del))
        (if (pyStrip (emitText (seg ot op.i1 op.i2))).isEmpty then []
         else [⟨DK.del, emitText (seg ot op.i1 op.i2)⟩])) = [] := by
      by_cases hdrop : (pyStrip (emitText (seg ot op.i1 op.i2))).isEmpty
      · rw [if_pos hdrop]; rfl
      · rw [if_neg hdrop, spanText_single]
        simp only [show (!decide (DK.del = DK.del)) = false by decide]
        rw [if_neg (by simp)]
        rfl
    have hinsOld : noWs (spanText (fun k => !decide (k = DK.ins))
        (if (pyStrip (emitText (seg nt op.j1 op.j2))).isEmpty then []
         else [⟨DK.ins, emitText (seg nt op.j1 op.j2)⟩])) = [] := by
      by_cases hdrop : (pyStrip (emitText (seg nt op.j1 op.j2))).isEmpty
      · rw [if_pos hdrop]; rfl
      · rw [if_neg hdrop, spanText_single]
        simp only [show (!decide (DK.ins = DK.ins)) = false by decide]
        rw [if_neg (by simp)]
        rfl
    have hinsNew : noWs (spanText (fun k => !decide (k = DK.del))
        (if (pyStrip (emitText (seg nt op.j1 op.j2))).isEmpty then []
         else [⟨DK.ins, emitText (seg nt op.j1 op.j2)⟩])) =
        (seg nt op.j1 op.j2).flatten := by
      by_cases hdrop : (pyStrip (emitText (seg nt op.j1 op.j2))).isEmpty
      · rw [if_pos hdrop]
        have : (seg nt op.j1 op.j2).flatten = [] := by
          rw [← hemitn]
          exact pyStrip_empty_noWs hdrop
        rw [this]; rfl
      · rw [if_neg hdrop, spanText_single]
        simp only [show (!decide (DK.ins = DK.del)) = true by decide, if_pos]
        exact hemitn
    rw [hdelOld, hdelNew, hinsOld, hinsNew]
    constructor
    · simp
    · simp

theorem charSpan_sides (a b : List Char) (op : Opc)
    (hwf : OpWF a b a.length b.length op) :
    spanText (fun k => !decide (k = DK.ins)) (charSpanOf a b op) =
      seg a op.i1 op.i2 ∧
    spanText (fun k => !decide (k = DK.del)) (charSpanOf a b op) =
      seg b op.j1 op.j2 := by
  obtain ⟨h12, hj12, hx, hy, heq, hins, hdel⟩ := hwf
  have hseg : ∀ (l : List Char) (i k : Nat),
      spanText (fun k => !decide (k = DK.ins))
        (if (seg l i k).isEmpty then [] else [⟨DK.eq, seg l i k⟩]) = seg l i k := by
    intro l i k
    by_cases h : (seg l i k).isEmpty
    · rw [if_pos h]
      have : seg l i k = [] := by
        cases hv : seg l i k
        · rfl
        · rw [hv] at h; simp [List.isEmpty] at h
      rw [this]; rfl
    · rw [if_neg h, spanText_single]
      simp
  unfold charSpanOf
  cases htag : op.tag with
  | eq =>
    dsimp only
    have hsegeq : seg a op.i1 op.i2 = seg b op.j1 op.j2 := by
      obtain ⟨hlen, hsl⟩ := heq htag
      have h1 := sliceEq_seg hsl
      have e1 : op.i1 + (op.i2 - op.i1) = op.i2 := by omega
      have e2 : op.j1 + (op.i2 - op.i1) = op.j2 := by omega
      rw [e1, e2] at h1
      exact h1
    refine ⟨hseg a op.i1 op.i2, ?_⟩
    by_cases h : (seg a op.i1 op.i2).isEmpty
    · rw [if_pos h]
      have : seg a op.i1 op.i2 = [] := by
        cases hv : seg a op.i1 op.i2
        · rfl
        · rw [hv] at h; simp [List.isEmpty] at h
      rw [← hsegeq, this]; rfl
    · rw [if_neg h, spanText_single]
      simp only [show (!decide (DK.eq = DK.del)) = true by decide, if_pos]
      exact hsegeq
  | del =>
    dsimp only
    have hjj : op.j1 = op.j2 := hdel htag
    constructor
    · by_cases h : (seg a op.i1 op.i2).isEmpty
      · rw [if_pos h]
        have : seg a op.i1 op.i2 = [] := by
          cases hv : seg a op.i1 op.i2
          · rfl
          · rw [hv] at h; simp [List.isEmpty] at h
        rw [this]; rfl
      · rw [if_neg h, spanText_single]
        simp
    · by_cases h : (seg a op.i1 op.i2).isEmpty
      · rw [if_pos h, ← hjj, seg_empty]; rfl
      · rw [if_neg h, spanText_single]
        simp only [show (!decide (DK.del = DK.del)) = false by decide]
        rw [if_neg (by simp), ← hjj, seg_empty]
  | ins =>
    dsimp only
    have hii : op.i1 = op.i2 := hins htag
    constructor
    · by_cases h : (seg b op.j1 op.j2).isEmpty
      · rw [if_pos h, ← hii, seg_empty]; rfl
      · rw [if_neg h, spanText_single]
        simp only [show (!decide (DK.ins = DK.ins)) = false by decide]
        rw [if_neg (by simp), ← hii, seg_empty]
    · by_cases h : (seg b op.j1 op.j2).isEmpty
      · rw [if_pos h]
        have : seg b op.j1 op.j2 = [] := by
          cases hv : seg b op.j1 op.j2
          · rfl
          · rw [hv] at h; simp [List.isEmpty] at h
        rw [this]; rfl
      · rw [if_neg h, spanText_single]
        simp
  | rep =>
    dsimp only
    rw [spanText_append, spanText_append]
    constructor
    · have h2 : spanText (fun k => !decide (k = DK.ins))
          (if (seg b op.j1 op.j2).isEmpty then [] else [⟨DK.ins, seg b op.j1 op.j2⟩]) = [] := by
        by_cases h : (seg b op.j1 op.j2).isEmpty
        · rw [if_pos h]; rfl
        · rw [if_neg h, spanText_single]
          simp only [show (!decide (DK.ins = DK.ins)) = false by decide]
          rw [if_neg (by simp)]
      have h1 : spanText (fun k => !decide (k = DK.ins))
          (if (seg a op.i1 op.i2).isEmpty then [] else [⟨DK.del, seg a op.i1 op.i2⟩]) =
          seg a op.i1 op.i2 := by
        by_cases h : (seg a op.i1 op.i2).isEmpty
        · rw [if_pos h]
          have : seg a op.i1 op.i2 = [] := by
            cases hv : seg a op.i1 op.i2
            · rfl
            · rw [hv] at h; simp [List.isEmpty] at h
          rw [this]; rfl
        · rw [if_neg h, spanText_single]
          simp
      rw [h1, h2, List.append_nil]
    · have h1 : spanText (fun k => !decide (k = DK.del))
          (if (seg a op.i1 op.i2).isEmpty then [] else [⟨DK.del, seg a op.i1 op.i2⟩]) = [] := by
        by_cases h : (seg a op.i1 op.i2).isEmpty
        · rw [if_pos h]; rfl
        · rw [if_neg h, spanText_single]
          simp only [show (!decide (DK.del = DK.del)) = false by decide]
          rw [if_neg (by simp)]
      have h2 : spanText (fun k => !decide (k = DK.del))
          (if (seg b op.j1 op.j2).isEmpty then [] else [⟨DK.ins, seg b op.j1 op.j2⟩]) =
          seg b op.j1 op.j2 := by
        by_cases h : (seg b op.j1 op.j2).isEmpty
        · rw [if_pos h]
          have : seg b op.j1 op.j2 = [] := by
            cases hv : seg b op.j1 op.j2
            · rfl
            · rw [hv] at h; simp [List.isEmpty] at h
          rw [this]; rfl
        · rw [if_neg h, spanText_single]
          simp
      rw [h1, h2, List.nil_append]

/-- C2 (amended) : round-trip of the inline differs.  For the
token-level strategy (`diff_tokens_to_html`), whitespace is discarded by
tokenization and re-synthesized by `emit_text`, so concatenating the
Equal and Delete span texts reproduces the old chunk body only up to
whitespace (exactly: their non-whitespace characters agree), and
symmetrically Equal+Insert for the new body.  For the character-level
semantic strategy (spec-modelled `dmp_inline`) the reproduction is
exact. -/
theorem c2_round_trip_amended :
    ∀ old new : List Char,
      (noWs (spanText (fun k => !decide (k = DK.ins)) (diffTokensSpans old new)) =
          noWs old ∧
       noWs (spanText (fun k => !decide (k = DK.del)) (diffTokensSpans old new)) =
          noWs new) ∧
      (spanText (fun k => !decide (k = DK.ins)) (dmpInlineSpans old new) = old ∧
       spanText (fun k => !decide (k = DK.del)) (dmpInlineSpans old new) = new) := by
  intro old new
  constructor
  · have hch := mblocks_chain (tokenize old) (tokenize new) noJunk
    have hwf := opGo_wf hch
    have hto : ∀ t ∈ tokenize old, ∀ c ∈ t, pySpace c = false :=
      fun t ht => (tokenize_mem t ht).2
    have htn : ∀ t ∈ tokenize new, ∀ c ∈ t, pySpace c = false :=
      fun t ht => (tokenize_mem t ht).2
    constructor
    · show noWs (spanText (fun k => !decide (k = DK.ins))
        ((opcodes (tokenize old) (tokenize new) noJunk).flatMap
          (tokSpanOf (tokenize old) (tokenize new)))) = noWs old
      rw [spanText_flatMap, noWs_flatten, List.map_map]
      rw [List.map_congr_left (fun op hop => by
        show (noWs ∘ fun op => spanText (fun k => !decide (k = DK.ins))
          (tokSpanOf (tokenize old) (tokenize new) op)) op =
          (fun op => (seg (tokenize old) op.i1 op.i2).flatten) op
        exact (tokSpan_sides (tokenize old) (tokenize new) op (hwf op hop) hto htn).1)]
      unfold opcodes
      rw [flatten_map_flatten, opGo_oldCover hch, seg_self, tokenize_flatten]
    · show noWs (spanText (fun k => !decide (k = DK.del))
        ((opcodes (tokenize old) (tokenize new) noJunk).flatMap
          (tokSpanOf (tokenize old) (tokenize new)))) = noWs new
      rw [spanText_flatMap, noWs_flatten, List.map_map]
      rw [List.map_congr_left (fun op hop => by
        show (noWs ∘ fun op => spanText (fun k => !decide (k = DK.del))
          (tokSpanOf (tokenize old) (tokenize new) op)) op =
          (fun op => (seg (tokenize new) op.j1 op.j2).flatten) op
        exact (tokSpan_sides (tokenize old) (tokenize new) op (hwf op hop) hto htn).2)]
      unfold opcodes
      rw [flatten_map_flatten, opGo_newCover hch, seg_self, tokenize_flatten]
  · unfold dmpInlineSpans
    by_cases heq : old = new
    · rw [if_pos heq]
      subst heq
      by_cases h0 : old.isEmpty
      · rw [if_pos h0]
        have : old = [] := by
          cases hv : old
          · rfl
          · rw [hv] at h0; simp [List.isEmpty] at h0
        rw [this]
        exact ⟨rfl, rfl⟩
      · rw [if_neg h0]
        rw [spanText_single, spanText_single]
        exact ⟨by simp, by simp⟩
    · rw [if_neg heq]
      have hch := mblocks_chain old new noJunk
      have hwf := opGo_wf hch
      constructor
      · rw [spanText_flatMap]
        unfold opcodes
        rw [List.map_congr_left (fun op hop =>
          (charSpan_sides old new op (hwf op hop)).1)]
        rw [opGo_oldCover hch, seg_self]
      · rw [spanText_flatMap]
        unfold opcodes
        rw [List.map_congr_left (fun op hop =>
          (charSpan_sides old new op (hwf op hop)).2)]
        rw [opGo_newCover hch, seg_self]

/-- C2 (counterexample) : for the token-level strategy, concatenating
the Equal and Delete span texts does not reproduce the old chunk body
exactly — the double space of "a  b" is re-emitted as a single space —
so the claim's exact round-trip fails for the token-level differ. -/
theorem c2_counterexample :
    spanText (fun k => !decide (k = DK.ins))
        (diffTokensSpans "a  b".data "a  b".data) ≠ "a  b".data := by
  decide

/-!  ## C1 : order preservation of align_paragraphs -/

theorem enumF_mem {β : Type} :
    ∀ (l : List β) (i : Nat) (e : Nat × β), e ∈ enumF i l →
      i ≤ e.1 ∧ e.1 < i + l.length ∧ l[e.1 - i]? = some e.2 := by
  intro l
  induction l with
  | nil => intro i e h; simp [enumF] at h
  | cons x xs ih =>
    intro i e h
    unfold enumF at h
    rcases List.mem_cons.mp h with h | h
    · subst h
      simp
    · obtain ⟨h1, h2, h3⟩ := ih (i + 1) e h
      refine ⟨by omega, by simp; omega, ?_⟩
      have e1 : e.1 - i = (e.1 - (i + 1)) + 1 := by omega
      rw [e1]
      simpa using h3

theorem enumF_map_snd {β : Type} :
    ∀ (l : List β) (i : Nat), (enumF i l).map (fun jn => jn.2) = l := by
  intro l
  induction l with
  | nil => intro i; rfl
  | cons x xs ih =>
    intro i
    unfold enumF
    rw [List.map_cons, ih]

theorem enumF_getD {news : List (List Char)} {j : Nat} {v : List Char}
    (h : (j, v) ∈ enumF 0 news) : news.getD j [] = v := by
  obtain ⟨_, _, h3⟩ := enumF_mem news 0 (j, v) h
  simp only [Nat.sub_zero] at h3
  unfold List.getD
  simp [h3]

theorem enumF_filter_extract {β : Type} [DecidableEq β] (used : List Nat) :
    ∀ (l : List β) (i j : Nat) (v : β), (j, v) ∈ enumF i l → j ∉ used →
      List.Perm ((enumF i l).filter (fun jn => jn.1 ∉ used))
        ((j, v) :: (enumF i l).filter (fun jn => jn.1 ∉ (j :: used))) := by
  intro l
  induction l with
  | nil => intro i j v h; simp [enumF] at h
  | cons x xs ih =>
    intro i j v hmem hju
    unfold enumF at hmem ⊢
    rcases List.mem_cons.mp hmem with hmem | hmem
    · have hj : j = i := by simpa using congrArg Prod.fst hmem
      have hv : v = x := by simpa using congrArg Prod.snd hmem
      subst hj
      subst hv
      rw [List.filter_cons_of_pos (by simpa using hju)]
      rw [List.filter_cons_of_neg (by simp)]
      rw [List.perm_cons]
      apply List.Perm.of_eq
      apply List.filter_congr
      intro e he
      have hge := (enumF_mem xs (j + 1) e he).1
      simp only [decide_eq_decide, List.mem_cons, not_or]
      constructor
      · intro hn; exact ⟨by omega, hn⟩
      · intro hn; exact hn.2
    · have hjge := (enumF_mem xs (i + 1) (j, v) hmem).1
      have hij : i ≠ j := by simp only [] at hjge; omega
      by_cases hiu : i ∈ used
      · rw [List.filter_cons_of_neg (by simpa using hiu)]
        rw [List.filter_cons_of_neg (by simp [hiu])]
        exact ih (i + 1) j v hmem hju
      · rw [List.filter_cons_of_pos (by simpa using hiu)]
        rw [List.filter_cons_of_pos (by
          simp only [List.mem_cons, not_or, decide_eq_true_eq]
          exact ⟨hij, hiu⟩)]
        refine List.Perm.trans ((List.perm_cons (i, x)).mpr (ih (i + 1) j v hmem hju)) ?_
        exact List.Perm.swap (j, v) (i, x) _

theorem filterMap_const_none {γ δ : Type} (l : List γ) :
    l.filterMap (fun _ => (none : Option δ)) = [] := by
  induction l with
  | nil => rfl
  | cons x xs ih => simpa [List.filterMap_cons] using ih

theorem filterMap_some_comp {γ δ : Type} (f : γ → δ) :
    ∀ l : List γ, l.filterMap (fun x => some (f x)) = l.map f := by
  intro l
  induction l with
  | nil => rfl
  | cons x xs ih => simp [List.filterMap_cons, ih]

theorem filterMap_flatMap_distrib {γ δ ε : Type} (f : γ → List δ) (g : δ → Option ε) :
    ∀ l : List γ, (l.flatMap f).filterMap g = l.flatMap (fun x => (f x).filterMap g) := by
  intro l
  induction l with
  | nil => rfl
  | cons x xs ih => simp [List.flatMap_cons, List.filterMap_append, ih]

theorem flatMap_eq_flatten_map {γ δ : Type} (f : γ → List δ) (l : List γ) :
    l.flatMap f = (l.map f).flatten := by
  induction l with
  | nil => rfl
  | cons x xs ih => simp [List.flatMap_cons, ih]

theorem flatMap_perm_congr {γ δ : Type} {f g : γ → List δ} :
    ∀ {l : List γ}, (∀ x ∈ l, (f x).Perm (g x)) → (l.flatMap f).Perm (l.flatMap g) := by
  intro l
  induction l with
  | nil => intro _; exact List.Perm.refl _
  | cons x xs ih =>
    intro h
    rw [List.flatMap_cons, List.flatMap_cons]
    exact List.Perm.append (h x (by simp)) (ih fun y hy => h y (by simp [hy]))

theorem getD_eq_getElem {γ : Type} (l : List γ) (d : γ) {n : Nat} (h : n < l.length) :
    l.getD n d = l[n] := by
  simp [List.getD, List.getElem?_eq_getElem h]

theorem map_getD_range {γ : Type} (l : List γ) (d : γ) {i k : Nat} (h2 : k ≤ l.length) :
    (List.range (k - i)).map (fun n => l.getD (i + n) d) = seg l i k := by
  apply List.ext_getElem?
  intro n
  rw [seg_getElem, List.getElem?_map]
  by_cases hn : n < k - i
  · rw [if_pos hn]
    rw [List.getElem?_range hn]
    have hlen : i + n < l.length := by omega
    rw [List.getElem?_eq_getElem hlen]
    show some (l.getD (i + n) d) = some l[i + n]
    rw [getD_eq_getElem l d hlen]
  · rw [if_neg hn]
    rw [List.getElem?_eq_none (by simpa using hn)]
    rfl

theorem map_getD_range_s {γ : Type} (l : List γ) (d : γ) {i k : Nat} (h2 : k ≤ l.length) :
    (List.range' i (k - i)).map (fun n => l.getD n d) = seg l i k := by
  rw [List.range'_eq_map_range, List.map_map]
  exact map_getD_range l d h2

theorem oldProj_cons_some {γ : Type} (v : γ) (b : Option γ)
    (rest : List (Option γ × Option γ)) :
    oldProj ((some v, b) :: rest) = v :: oldProj rest := by
  simp [oldProj, List.filterMap_cons]

theorem newProj_cons_some {γ : Type} (a : Option γ) (v : γ)
    (rest : List (Option γ × Option γ)) :
    newProj ((a, some v) :: rest) = v :: newProj rest := by
  simp [newProj, List.filterMap_cons]

theorem newProj_cons_none {γ : Type} (a : Option γ)
    (rest : List (Option γ × Option γ)) :
    newProj ((a, none) :: rest) = newProj rest := by
  simp [newProj, List.filterMap_cons]

/-- Every old paragraph of a replace run reappears, in order, as the old
side of the resolution output. -/
theorem rrGo_oldProj (t : ℚ) (news : List (List Char)) :
    ∀ (olds : List (List Char)) (used : List Nat),
      oldProj (rrGo t news olds used) = olds := by
  intro olds
  induction olds with
  | nil =>
    intro used
    unfold rrGo oldProj
    rw [List.filterMap_map]
    exact filterMap_const_none _
  | cons o olds ih =>
    intro used
    unfold rrGo
    cases hcl : rrClaim t o news used with
    | some j =>
      rw [oldProj_cons_some, ih]
    | none =>
      rw [oldProj_cons_some, ih]

theorem bcAux_fresh (o : List Char) (used : List Nat) :
    ∀ (jns : List (Nat × List Char)) (st : Option Nat × ℚ) (j : Nat),
      (bcAux o used jns st).1 = some j →
      st.1 = some j ∨ (j ∉ used ∧ ∃ v, (j, v) ∈ jns) := by
  intro jns
  induction jns with
  | nil => intro st j h; exact Or.inl h
  | cons jn rest ih =>
    intro st j h
    unfold bcAux at h
    rcases ih _ j h with h' | ⟨h1, v, h2⟩
    · by_cases hu : jn.1 ∈ used
      · rw [if_pos hu] at h'
        exact Or.inl h'
      · rw [if_neg hu] at h'
        dsimp only at h'
        by_cases hs : st.2 < paragraphSimilarity o jn.2
        · rw [if_pos hs] at h'
          have hjj : jn.1 = j := by simpa using h'
          subst hjj
          exact Or.inr ⟨hu, jn.2, by simp⟩
        · rw [if_neg hs] at h'
          exact Or.inl h'
    · exact Or.inr ⟨h1, v, List.mem_cons_of_mem _ h2⟩

/-- A claimed index is unclaimed so far and indexes an actual new
paragraph. -/
theorem rrClaim_mem (t : ℚ) (o : List Char) (news : List (List Char)) (used : List Nat)
    {j : Nat} (h : rrClaim t o news used = some j) :
    j ∉ used ∧ (j, news.getD j []) ∈ enumF 0 news := by
  unfold rrClaim at h
  split at h
  · rename_i j' hbc
    split at h
    · cases h
      rcases bcAux_fresh o used (enumF 0 news) (none, 0) j hbc with h' | ⟨h1, v, h2⟩
      · simp at h'
      · have := enumF_getD h2
        exact ⟨h1, by rw [this]; exact h2⟩
    · cases h
  · cases h

/-- The new sides of a replace-run resolution are exactly the new
paragraphs not claimed on entry, up to order. -/
theorem rrGo_newProj (t : ℚ) (news : List (List Char)) :
    ∀ (olds : List (List Char)) (used : List Nat),
      (newProj (rrGo t news olds used)).Perm
        (((enumF 0 news).filter (fun jn => jn.1 ∉ used)).map (fun jn => jn.2)) := by
  intro olds
  induction olds with
  | nil =>
    intro used
    apply List.Perm.of_eq
    unfold rrGo newProj
    rw [List.filterMap_map]
    exact filterMap_some_comp _ _
  | cons o olds ih =>
    intro used
    unfold rrGo
    cases hcl : rrClaim t o news used with
    | none =>
      rw [newProj_cons_none]
      exact ih used
    | some j =>
      obtain ⟨hju, hmem⟩ := rrClaim_mem t o news used hcl
      rw [newProj_cons_some]
      refine List.Perm.trans ((List.perm_cons _).mpr (ih (j :: used))) ?_
      have hperm := enumF_filter_extract used news 0 j (news.getD j []) hmem hju
      have hmap := List.Perm.map (fun jn : Nat × List Char => jn.2) hperm
      rw [List.map_cons] at hmap
      exact hmap.symm

/-- The old-side projection of `align_paragraphs` output is the old
paragraph list itself, in order, for every threshold. -/
theorem alignT_oldProj (t : ℚ) (olds news : List (List Char)) :
    oldProj (alignParagraphsT t olds news) = olds := by
  unfold alignParagraphsT oldProj
  rw [filterMap_flatMap_distrib, flatMap_eq_flatten_map]
  rw [List.map_congr_left (g := fun op => seg olds op.i1 op.i2) ?hfun]
  case hfun =>
    intro op hop
    obtain ⟨h1, h2, h3, h4, heq, hins, hdel⟩ :=
      opGo_wf (mblocks_chain olds news noJunk) op hop
    cases htag : op.tag with
    | eq =>
      rw [List.filterMap_map]
      show (List.range (op.i2 - op.i1)).filterMap
          (fun k => some (olds.getD (op.i1 + k) [])) = _
      rw [filterMap_some_comp]
      exact map_getD_range olds [] h3
    | del =>
      rw [List.filterMap_map]
      show (List.range' op.i1 (op.i2 - op.i1)).filterMap
          (fun k => some (olds.getD k [])) = _
      rw [filterMap_some_comp]
      exact map_getD_range_s olds [] h3
    | ins =>
      rw [List.filterMap_map]
      show (List.range' op.j1 (op.j2 - op.j1)).filterMap
          (fun _ => (none : Option (List Char))) = _
      rw [filterMap_const_none]
      show ([] : List (List Char)) = seg olds op.i1 op.i2
      rw [← hins htag, seg_empty]
    | rep =>
      show oldProj (resolveReplace t (seg olds op.i1 op.i2) (seg news op.j1 op.j2)) = _
      unfold resolveReplace
      exact rrGo_oldProj t _ _ []
  unfold opcodes
  rw [opGo_oldCover (mblocks_chain olds news noJunk), seg_self]

/-- The new-side projection of `align_paragraphs` output is a
permutation of the new paragraph list, for every threshold. -/
theorem alignT_newProj (t : ℚ) (olds news : List (List Char)) :
    (newProj (alignParagraphsT t olds news)).Perm news := by
  unfold alignParagraphsT newProj
  rw [filterMap_flatMap_distrib]
  refine List.Perm.trans
    (flatMap_perm_congr (g := fun op => seg news op.j1 op.j2) ?hfun) ?hcov
  case hfun =>
    intro op hop
    obtain ⟨h1, h2, h3, h4, heq, hins, hdel⟩ :=
      opGo_wf (mblocks_chain olds news noJunk) op hop
    cases htag : op.tag with
    | eq =>
      apply List.Perm.of_eq
      rw [List.filterMap_map]
      show (List.range (op.i2 - op.i1)).filterMap
          (fun k => some (news.getD (op.j1 + k) [])) = _
      rw [filterMap_some_comp, (heq htag).1]
      exact map_getD_range news [] h4
    | del =>
      apply List.Perm.of_eq
      rw [List.filterMap_map]
      show (List.range' op.i1 (op.i2 - op.i1)).filterMap
          (fun _ => (none : Option (List Char))) = _
      rw [filterMap_const_none]
      show ([] : List (List Char)) = seg news op.j1 op.j2
      rw [← hdel htag, seg_empty]
    | ins =>
      apply List.Perm.of_eq
      rw [List.filterMap_map]
      show (List.range' op.j1 (op.j2 - op.j1)).filterMap
          (fun k => some (news.getD k [])) = _
      rw [filterMap_some_comp]
      exact map_getD_range_s news [] h4
    | rep =>
      show (newProj (resolveReplace t (seg olds op.i1 op.i2) (seg news op.j1 op.j2))).Perm _
      unfold resolveReplace
      refine List.Perm.trans (rrGo_newProj t _ _ []) (List.Perm.of_eq ?_)
      rw [List.filter_eq_self.mpr (by simp)]
      rw [enumF_map_snd]
  case hcov =>
    apply List.Perm.of_eq
    rw [flatMap_eq_flatten_map]
    unfold opcodes
    rw [opGo_newCover (mblocks_chain olds news noJunk), seg_self]

/-- C1: The spec claims the aligner output preserves source order on
both projections (no pairing crosses another).  The old-side projection
is indeed the old chunk list in order, but the new-side projection is
only a permutation of the new chunk list: the greedy replace-run
resolution can claim new chunks out of order, crossing pairings on the
new side (see the counterexample). -/
theorem c1_order_preservation (t : ℚ) (olds news : List (List Char)) :
    oldProj (alignParagraphsT t olds news) = olds ∧
    (newProj (alignParagraphsT t olds news)).Perm news :=
  ⟨alignT_oldProj t olds news, alignT_newProj t olds news⟩

/-- C1 counterexample: with old paragraphs `[aaaaaaap, bbbbbbbp]` and
new paragraphs `[bbbbbbbq, aaaaaaaq]`, `align_paragraphs` (threshold
`0.35`) pairs each old paragraph with its high-similarity partner on
the opposite side, so the new-side projection comes out as
`[aaaaaaaq, bbbbbbbq]` — not in new-side source order: the two pairings
cross, refuting the claimed new-side order preservation. -/
theorem c1_counterexample :
    newProj (alignParagraphs
        [('a' :: "aaaaaap".data), ('b' :: "bbbbbbp".data)]
        [('b' :: "bbbbbbq".data), ('a' :: "aaaaaaq".data)]) =
      [('a' :: "aaaaaaq".data), ('b' :: "bbbbbbq".data)] := by
  decide

/-!  ## C4 : the replace-run resolution against the spec's wording

The spec describes the replace-run rule as: score every not-yet-claimed
new chunk, claim the highest-scoring one when the score reaches the
threshold, else emit an old-only pair; afterwards append never-claimed
new chunks in original order.  The following definitions transcribe
that wording; C4 proves them equivalent to the source's loop. -/

def specClaimD (t : ℚ) (o : List Char) (news : List (List Char)) (used : List Nat) :
    Option Nat :=
  let cands := (enumF 0 news).filter (fun jn => jn.1 ∉ used)
  let best := (cands.map (fun jn => paragraphSimilarity o jn.2)).foldl max 0
  if t ≤ best then
    (cands.find? (fun jn => paragraphSimilarity o jn.2 = best)).map (fun jn => jn.1)
  else none

def specGo (t : ℚ) (news : List (List Char)) :
    List (List Char) → List Nat → List (Option (List Char) × Option (List Char))
  | [], used =>
    ((enumF 0 news).filter (fun jn => jn.1 ∉ used)).map (fun jn => (none, some jn.2))
  | o :: olds, used =>
    match specClaimD t o news used with
    | some j => (some o, some (news.getD j [])) :: specGo t news olds (j :: used)
    | none => (some o, none) :: specGo t news olds used

def specResolveReplace (t : ℚ) (olds news : List (List Char)) :
    List (Option (List Char) × Option (List Char)) :=
  specGo t news olds []

theorem le_foldl_max (l : List ℚ) : ∀ b : ℚ, b ≤ l.foldl max b := by
  induction l with
  | nil => intro b; exact le_refl b
  | cons x xs ih =>
    intro b
    rw [List.foldl_cons]
    exact le_trans (le_max_left b x) (ih (max b x))

/-- The running best-candidate scan computes the maximum similarity of
the unclaimed candidates, and (when it improves on the initial score)
the first candidate attaining it. -/
theorem bcAux_char (o : List Char) (used : List Nat) :
    ∀ (jns : List (Nat × List Char)) (st : Option Nat × ℚ),
      (bcAux o used jns st).2 =
        ((jns.filter (fun jn => jn.1 ∉ used)).map
          (fun jn => paragraphSimilarity o jn.2)).foldl max st.2 ∧
      (bcAux o used jns st).1 =
        (if st.2 < (bcAux o used jns st).2 then
          ((jns.filter (fun jn => jn.1 ∉ used)).find?
            (fun jn => paragraphSimilarity o jn.2 = (bcAux o used jns st).2)).map
            (fun jn => jn.1)
         else st.1) := by
  intro jns
  induction jns with
  | nil =>
    intro st
    show st.2 = List.foldl max st.2 _ ∧ st.1 = _
    refine ⟨rfl, ?_⟩
    show st.1 = if st.2 < st.2 then _ else st.1
    rw [if_neg (lt_irrefl st.2)]
  | cons jn rest ih =>
    intro st
    by_cases hmem : jn.1 ∈ used
    · have hbc : bcAux o used (jn :: rest) st = bcAux o used rest st := by
        show bcAux o used rest
          (if jn.1 ∈ used then st
           else
             let s := paragraphSimilarity o jn.2
             if st.2 < s then (some jn.1, s) else st) = bcAux o used rest st
        rw [if_pos hmem]
      have hfil : (jn :: rest).filter (fun jn => jn.1 ∉ used) =
          rest.filter (fun jn => jn.1 ∉ used) :=
        List.filter_cons_of_neg (by simpa using hmem)
      rw [hbc, hfil]
      exact ih st
    · have hbc : bcAux o used (jn :: rest) st = bcAux o used rest
          (if st.2 < paragraphSimilarity o jn.2
           then (some jn.1, paragraphSimilarity o jn.2) else st) := by
        show bcAux o used rest
          (if jn.1 ∈ used then st
           else
             let s := paragraphSimilarity o jn.2
             if st.2 < s then (some jn.1, s) else st) = _
        rw [if_neg hmem]
      have hfil : (jn :: rest).filter (fun jn => jn.1 ∉ used) =
          jn :: rest.filter (fun jn => jn.1 ∉ used) :=
        List.filter_cons_of_pos (by simpa using hmem)
      rw [hbc, hfil]
      set s := paragraphSimilarity o jn.2 with hs
      set st2 := (if st.2 < s then (some jn.1, s) else st) with hst
      have hval : st2.2 = max st.2 s := by
        rw [hst]
        by_cases hlt : st.2 < s
        · rw [if_pos hlt]
          exact (max_eq_right (le_of_lt hlt)).symm
        · rw [if_neg hlt]
          exact (max_eq_left (le_of_not_lt hlt)).symm
      obtain ⟨ihv, ihi⟩ := ih st2
      set M := (bcAux o used rest st2).2 with hM
      have hMfold : M = ((rest.filter (fun jn => jn.1 ∉ used)).map
          (fun jn => paragraphSimilarity o jn.2)).foldl max (max st.2 s) := by
        rw [ihv, hval]
      have hmaxle : max st.2 s ≤ M := by
        rw [hMfold]
        exact le_foldl_max _ _
      refine ⟨by rw [List.map_cons, List.foldl_cons, ← hs, hMfold], ?_⟩
      rw [ihi]
      by_cases hA : st.2 < s
      · have hst1 : st2.1 = some jn.1 := by rw [hst, if_pos hA]
        have hst2v : st2.2 = s := by rw [hval, max_eq_right (le_of_lt hA)]
        rw [if_pos (lt_of_lt_of_le hA (le_trans (le_max_right st.2 s) hmaxle))]
        by_cases hA1 : s < M
        · rw [if_pos (by rw [hst2v]; exact hA1)]
          rw [List.find?_cons_of_neg _ (by
            simp only [← hs]
            exact fun hct => ne_of_lt hA1 (of_decide_eq_true hct))]
        · have hMs : M = s :=
            le_antisymm (le_of_not_lt hA1)
              (le_trans (le_max_right st.2 s) hmaxle)
          rw [if_neg (by rw [hst2v, hMs]; exact lt_irrefl s)]
          rw [List.find?_cons_of_pos _ (by
            simp only [← hs]
            exact decide_eq_true hMs.symm)]
          rw [hst1]
          rfl
      · have hsteq : st2 = st := by rw [hst, if_neg hA]
        have hmax : max st.2 s = st.2 := max_eq_left (le_of_not_lt hA)
        by_cases hB1 : st.2 < M
        · rw [if_pos hB1]
          rw [if_pos (by rw [hsteq]; exact hB1)]
          rw [List.find?_cons_of_neg _ (by
            simp only [← hs]
            exact fun hct =>
              (not_lt_of_le ((of_decide_eq_true hct) ▸ le_of_not_lt hA)) hB1)]
        · rw [if_neg hB1]
          rw [if_neg (by rw [hsteq]; exact hB1)]
          rw [hsteq]

/-- For a positive threshold, the source's running-best scan makes the
same claim decision as the spec's described rule (max unclaimed score,
first attaining candidate, threshold check). -/
theorem rrClaim_eq_spec (t : ℚ) (ht : 0 < t) (o : List Char)
    (news : List (List Char)) (used : List Nat) :
    rrClaim t o news used = specClaimD t o news used := by
  obtain ⟨hv, hi⟩ := bcAux_char o used (enumF 0 news) (none, 0)
  have hv2 : (bestCandidate o news used).2 =
      (((enumF 0 news).filter (fun jn => jn.1 ∉ used)).map
        (fun jn => paragraphSimilarity o jn.2)).foldl max 0 := hv
  have hi2 : (bestCandidate o news used).1 =
      (if (0:ℚ) < (bestCandidate o news used).2 then
        (((enumF 0 news).filter (fun jn => jn.1 ∉ used)).find?
          (fun jn => paragraphSimilarity o jn.2 = (bestCandidate o news used).2)).map
          (fun jn => jn.1)
       else none) := hi
  have hspec : specClaimD t o news used =
      (if t ≤ (bestCandidate o news used).2 then
        (((enumF 0 news).filter (fun jn => jn.1 ∉ used)).find?
          (fun jn => paragraphSimilarity o jn.2 = (bestCandidate o news used).2)).map
          (fun jn => jn.1)
       else none) := by
    show (if t ≤ (((enumF 0 news).filter (fun jn => jn.1 ∉ used)).map
        (fun jn => paragraphSimilarity o jn.2)).foldl max 0 then
        (((enumF 0 news).filter (fun jn => jn.1 ∉ used)).find?
          (fun jn => paragraphSimilarity o jn.2 =
            (((enumF 0 news).filter (fun jn => jn.1 ∉ used)).map
              (fun jn => paragraphSimilarity o jn.2)).foldl max 0)).map
          (fun jn => jn.1)
       else none) = _
    rw [← hv2]
  rw [hspec]
  unfold rrClaim
  cases hbc1 : (bestCandidate o news used).1 with
  | none =>
    rw [hbc1] at hi2
    by_cases h0 : (0:ℚ) < (bestCandidate o news used).2
    · rw [if_pos h0] at hi2
      rw [← hi2]
      by_cases hle : t ≤ (bestCandidate o news used).2
      · rw [if_pos hle]
      · rw [if_neg hle]
    · rw [if_neg (fun hle => h0 (lt_of_lt_of_le ht hle))]
  | some j =>
    rw [hbc1] at hi2
    by_cases h0 : (0:ℚ) < (bestCandidate o news used).2
    · rw [if_pos h0] at hi2
      rw [← hi2]
    · rw [if_neg h0] at hi2
      simp at hi2

/-- For a positive threshold, the whole replace-run loop agrees with
the spec-worded resolution. -/
theorem rrGo_eq_specGo (t : ℚ) (ht : 0 < t) (news : List (List Char)) :
    ∀ (olds : List (List Char)) (used : List Nat),
      rrGo t news olds used = specGo t news olds used := by
  intro olds
  induction olds with
  | nil => intro used; rfl
  | cons o olds ih =>
    intro used
    unfold rrGo specGo
    rw [rrClaim_eq_spec t ht o news used]
    cases hcl : specClaimD t o news used with
    | some j =>
      dsimp only
      rw [ih (j :: used)]
    | none =>
      dsimp only
      rw [ih used]

/-- C4 : replace-run similarity resolution.  For every positive
threshold (in particular the source's hard-coded `0.35`), the source's
replace-run loop coincides with the claim's description: each old chunk
in order claims the highest-scoring not-yet-claimed new chunk when that
score reaches the threshold (first candidate on ties), becomes an
old-only pair otherwise, and the never-claimed new chunks follow as
new-only pairs in original order; and every similarity score lies in
`[0, 1]`. -/
theorem c4_replace_run_resolution (t : ℚ) (ht : 0 < t)
    (olds news : List (List Char)) :
    resolveReplace t olds news = specResolveReplace t olds news ∧
    ∀ o n : List Char, 0 ≤ paragraphSimilarity o n ∧ paragraphSimilarity o n ≤ 1 := by
  constructor
  · unfold resolveReplace specResolveReplace
    exact rrGo_eq_specGo t ht news olds []
  · intro o n
    exact ratioQ_bounds o n (autoJunk n)

/-- C4 witness: the equivalence applied at the source's threshold
`0.35` on a concrete replace run. -/
theorem c4_witness :
    (0:ℚ) < mkRat 35 100 ∧
    resolveReplace (mkRat 35 100) ["ab".data] ["ab".data, "cd".data] =
      specResolveReplace (mkRat 35 100) ["ab".data] ["ab".data, "cd".data] :=
  ⟨by decide,
   (c4_replace_run_resolution (mkRat 35 100) (by decide)
     ["ab".data] ["ab".data, "cd".data]).1⟩

/-- C5 : threshold monotonicity.  It holds decision-by-decision: with
the same already-claimed set, an old chunk that claims new chunk `j`
under the higher threshold claims the same `j` under any lower
threshold — raising the threshold can only turn that single claim into
an old-only pair.  The spec's global form of the claim is false: the
claimed-set interaction lets a raised threshold convert an unmatched
old chunk into a matched pair (see the counterexample). -/
theorem c5_threshold_monotonicity (t1 t2 : ℚ) (h12 : t1 ≤ t2)
    (o : List Char) (news : List (List Char)) (used : List Nat) (j : Nat)
    (h : rrClaim t2 o news used = some j) :
    rrClaim t1 o news used = some j := by
  unfold rrClaim at h ⊢
  cases hbc : (bestCandidate o news used).1 with
  | none =>
    rw [hbc] at h
    simp at h
  | some i =>
    rw [hbc] at h
    dsimp only at h ⊢
    by_cases hle : t2 ≤ (bestCandidate o news used).2
    · rw [if_pos hle] at h
      rw [if_pos (le_trans h12 hle)]
      exact h
    · rw [if_neg hle] at h
      simp at h

/-- C5 witness: the per-decision monotonicity applied with thresholds
`0.35 ≤ 0.8` on a concrete claim. -/
theorem c5_witness :
    (mkRat 35 100 ≤ mkRat 8 10 ∧
     rrClaim (mkRat 8 10) "ab".data ["ab".data] [] = some 0) ∧
    rrClaim (mkRat 35 100) "ab".data ["ab".data] [] = some 0 :=
  ⟨⟨by decide, by decide⟩,
   c5_threshold_monotonicity (mkRat 35 100) (mkRat 8 10) (by decide)
     "ab".data ["ab".data] [] 0 (by decide)⟩

/-- C5 counterexample: in the replace run with old chunks
`[abcd1234, abcdefgh]` and the single new chunk `abcdefgh`, at
threshold `0.35` the first old chunk (similarity `0.5`) claims the new
chunk and the second old chunk ends unmatched; raising the threshold to
`0.8` releases the new chunk (the first score falls below threshold)
and the previously unmatched second old chunk (similarity `1`) becomes
matched — refuting the claim that raising the threshold never converts
an unmatched chunk into a matched pair. -/
theorem c5_counterexample :
    resolveReplace (mkRat 35 100) ["abcd1234".data, "abcdefgh".data]
        ["abcdefgh".data] =
      [(some "abcd1234".data, some "abcdefgh".data),
       (some "abcdefgh".data, none)] ∧
    resolveReplace (mkRat 8 10) ["abcd1234".data, "abcdefgh".data]
        ["abcdefgh".data] =
      [(some "abcd1234".data, none),
       (some "abcdefgh".data, some "abcdefgh".data)] :=
  ⟨by decide, by decide⟩

/-!  ## C3 / C6 : anchor-based alignment -/

theorem countP_eq_one_of_nodup_mem {γ : Type} [DecidableEq γ] :
    ∀ {l : List γ}, l.Nodup → ∀ {c : γ}, c ∈ l →
      l.countP (fun o => o = c) = 1 := by
  intro l
  induction l with
  | nil => intro _ c hc; simp at hc
  | cons x rest ih =>
    intro hnd c hc
    rw [List.countP_cons]
    rcases List.mem_cons.mp hc with hc | hc
    · subst hc
      have hx : rest.countP (fun o => o = c) = 0 := by
        apply List.countP_eq_zero.mpr
        intro o ho
        simp only [decide_eq_true_eq]
        intro hoc
        subst hoc
        exact (List.nodup_cons.mp hnd).1 ho
      rw [hx]
      simp
    · have hx : x ≠ c := by
        intro hxc
        subst hxc
        exact (List.nodup_cons.mp hnd).1 hc
      rw [ih (List.nodup_cons.mp hnd).2 hc]
      simp [hx]

/-- With distinct anchors, the anchor map lookup of a chunk's own anchor
returns that chunk's body. -/
theorem lookupAnchor_self :
    ∀ {chunks : List (List Char × List Char)},
      (chunks.map (fun c => c.1)).Nodup →
      ∀ {c : List Char × List Char}, c ∈ chunks →
        lookupAnchor chunks c.1 = some c.2 := by
  intro chunks
  induction chunks with
  | nil => intro _ c hc; simp at hc
  | cons n rest ih =>
    intro hnd c hc
    rw [List.map_cons, List.nodup_cons] at hnd
    rcases List.mem_cons.mp hc with hc | hc
    · subst hc
      unfold lookupAnchor
      rw [List.find?_cons_of_pos _ (by simp)]
      rfl
    · have hne : n.1 ≠ c.1 := by
        intro hcon
        exact hnd.1 (hcon ▸ List.mem_map_of_mem (fun c => c.1) hc)
      unfold lookupAnchor
      rw [List.find?_cons_of_neg _ (by simpa using hne)]
      exact ih hnd.2 hc

/-- The pairs of the old-chunk loop: one pair per old chunk in order,
the new side being the anchor-map lookup. -/
theorem abaGo_pairs (news : List (List Char × List Char)) :
    ∀ (olds : List (List Char × List Char)) (used : List (List Char)),
      (abaGo news olds used).1 = olds.map (fun o =>
        (some o, (lookupAnchor news o.1).map (fun bn => (o.1, bn)))) := by
  intro olds
  induction olds with
  | nil => intro used; rfl
  | cons c rest ih =>
    intro used
    unfold abaGo
    cases hl : lookupAnchor news c.1 with
    | none =>
      dsimp only
      rw [ih used, List.map_cons, hl]
      rfl
    | some bn =>
      dsimp only
      rw [ih (c.1 :: used), List.map_cons, hl]
      rfl

/-- Membership in the claimed-anchor set after the old-chunk loop. -/
theorem abaGo_used_mem (news : List (List Char × List Char)) :
    ∀ (olds : List (List Char × List Char)) (used : List (List Char))
      (a : List Char),
      a ∈ (abaGo news olds used).2 ↔
        (a ∈ used ∨ ∃ o ∈ olds, o.1 = a ∧ (lookupAnchor news o.1).isSome) := by
  intro olds
  induction olds with
  | nil =>
    intro used a
    constructor
    · intro h; exact Or.inl h
    · intro h
      rcases h with h | ⟨o, ho, _⟩
      · exact h
      · simp at ho
  | cons c rest ih =>
    intro used a
    unfold abaGo
    cases hl : lookupAnchor news c.1 with
    | none =>
      dsimp only
      rw [ih used a]
      constructor
      · intro h
        rcases h with h | ⟨o, ho, h1, h2⟩
        · exact Or.inl h
        · exact Or.inr ⟨o, List.mem_cons_of_mem _ ho, h1, h2⟩
      · intro h
        rcases h with h | ⟨o, ho, h1, h2⟩
        · exact Or.inl h
        · rcases List.mem_cons.mp ho with ho | ho
          · subst ho
            rw [hl] at h2
            simp at h2
          · exact Or.inr ⟨o, ho, h1, h2⟩
    | some bn =>
      dsimp only
      rw [ih (c.1 :: used) a]
      constructor
      · intro h
        rcases h with h | ⟨o, ho, h1, h2⟩
        · rcases List.mem_cons.mp h with h | h
          · exact Or.inr ⟨c, List.mem_cons_self c rest, h.symm, by rw [hl]; rfl⟩
          · exact Or.inl h
        · exact Or.inr ⟨o, List.mem_cons_of_mem _ ho, h1, h2⟩
      · intro h
        rcases h with h | ⟨o, ho, h1, h2⟩
        · exact Or.inl (List.mem_cons_of_mem _ h)
        · rcases List.mem_cons.mp ho with ho | ho
          · subst ho
            rw [← h1]
            exact Or.inl (List.mem_cons_self o.1 used)
          · exact Or.inr ⟨o, ho, h1, h2⟩

/-- C3 : totality of the anchor alignment holds when each side's
anchors are distinct: every old chunk heads exactly one pair and every
new chunk is the new side of exactly one pair.  With duplicated
anchors the claim fails (see the counterexample): the first-occurrence
anchor map and the claimed-anchor set can drop a duplicate new chunk
entirely. -/
theorem c3_totality (olds news : List (List Char × List Char))
    (hold : (olds.map (fun c => c.1)).Nodup)
    (hnew : (news.map (fun c => c.1)).Nodup) :
    (∀ c ∈ olds, (alignByAnchors olds news).countP (fun p => p.1 = some c) = 1) ∧
    (∀ c ∈ news, (alignByAnchors olds news).countP (fun p => p.2 = some c) = 1) := by
  have holdsN : olds.Nodup := hold.of_map
  have hnewsN : news.Nodup := hnew.of_map
  constructor
  · intro c hc
    show (((abaGo news olds []).1 ++
        (news.filter (fun x => x.1 ∉ (abaGo news olds []).2)).map
          (fun x => ((none : Option (List Char × List Char)), some x))).countP
      (fun p => p.1 = some c)) = 1
    rw [List.countP_append, abaGo_pairs news olds [], List.countP_map,
        List.countP_map]
    have h1 : olds.countP ((fun p : APair => decide (p.1 = some c)) ∘
        (fun o => (some o, (lookupAnchor news o.1).map (fun bn => (o.1, bn))))) = 1 := by
      rw [List.countP_congr (fun o ho => by
        show decide ((some o : Option (List Char × List Char)) = some c) = true ↔
          decide (o = c) = true
        simp)]
      exact countP_eq_one_of_nodup_mem holdsN hc
    have h2 : (news.filter (fun x => x.1 ∉ (abaGo news olds []).2)).countP
        ((fun p : APair => decide (p.1 = some c)) ∘
          (fun x => ((none : Option (List Char × List Char)), some x))) = 0 := by
      apply List.countP_eq_zero.mpr
      intro x hx
      show ¬ (decide ((none : Option (List Char × List Char)) = some c) = true)
      simp
    rw [h1, h2]
  · intro c hc
    show (((abaGo news olds []).1 ++
        (news.filter (fun x => x.1 ∉ (abaGo news olds []).2)).map
          (fun x => ((none : Option (List Char × List Char)), some x))).countP
      (fun p => p.2 = some c)) = 1
    rw [List.countP_append, abaGo_pairs news olds [], List.countP_map,
        List.countP_map]
    by_cases hex : ∃ o ∈ olds, o.1 = c.1
    · obtain ⟨o, ho, hoa⟩ := hex
      have hcU : c.1 ∈ (abaGo news olds []).2 := by
        rw [abaGo_used_mem news olds [] c.1]
        refine Or.inr ⟨o, ho, hoa, ?_⟩
        rw [hoa, lookupAnchor_self hnew hc]
        rfl
      have h1 : olds.countP ((fun p : APair => decide (p.2 = some c)) ∘
          (fun o => (some o, (lookupAnchor news o.1).map (fun bn => (o.1, bn))))) = 1 := by
        rw [List.countP_congr (fun x hx => by
          show decide ((lookupAnchor news x.1).map (fun bn => (x.1, bn)) = some c) = true ↔
            decide (x.1 = c.1) = true
          simp only [decide_eq_true_eq]
          constructor
          · intro hcon
            rcases hv : lookupAnchor news x.1 with _ | bn
            · rw [hv] at hcon
              simp at hcon
            · rw [hv] at hcon
              simp at hcon
              have hxt := congrArg Prod.fst hcon
              simpa using hxt
          · intro hxa
            rw [hxa, lookupAnchor_self hnew hc]
            simp)]
        have hm : olds.countP (fun x => decide (x.1 = c.1)) =
            (olds.map (fun x => x.1)).countP (fun y => decide (y = c.1)) := by
          rw [List.countP_map]
          rfl
        rw [hm]
        exact countP_eq_one_of_nodup_mem hold (hoa ▸ List.mem_map_of_mem _ ho)
      have h2 : (news.filter (fun x => x.1 ∉ (abaGo news olds []).2)).countP
          ((fun p : APair => decide (p.2 = some c)) ∘
            (fun x => ((none : Option (List Char × List Char)), some x))) = 0 := by
        apply List.countP_eq_zero.mpr
        intro x hx
        show ¬ (decide ((some x : Option (List Char × List Char)) = some c) = true)
        simp only [decide_eq_true_eq, Option.some.injEq]
        intro hxc
        subst hxc
        have hfc := (List.mem_filter.mp hx).2
        simp only [decide_eq_true_eq] at hfc
        exact hfc hcU
      rw [h1, h2]
    · push_neg at hex
      have hcU : c.1 ∉ (abaGo news olds []).2 := by
        rw [abaGo_used_mem news olds [] c.1]
        rintro (h | ⟨o, ho, h1, h2⟩)
        · simp at h
        · exact hex o ho h1
      have h1 : olds.countP ((fun p : APair => decide (p.2 = some c)) ∘
          (fun o => (some o, (lookupAnchor news o.1).map (fun bn => (o.1, bn))))) = 0 := by
        apply List.countP_eq_zero.mpr
        intro x hx
        show ¬ (decide ((lookupAnchor news x.1).map (fun bn => (x.1, bn)) = some c) = true)
        simp only [decide_eq_true_eq]
        intro hcon
        rcases hv : lookupAnchor news x.1 with _ | bn
        · rw [hv] at hcon
          simp at hcon
        · rw [hv] at hcon
          simp at hcon
          have hxt := congrArg Prod.fst hcon
          exact hex x hx (by simpa using hxt)
      have h2 : (news.filter (fun x => x.1 ∉ (abaGo news olds []).2)).countP
          ((fun p : APair => decide (p.2 = some c)) ∘
            (fun x => ((none : Option (List Char × List Char)), some x))) = 1 := by
        rw [List.countP_congr (fun x hx => by
          show decide ((some x : Option (List Char × List Char)) = some c) = true ↔
            decide (x = c) = true
          simp)]
        refine countP_eq_one_of_nodup_mem (hnewsN.filter _) ?_
        exact List.mem_filter.mpr ⟨hc, by simpa using hcU⟩
      rw [h1, h2]

/-- C3 witness: totality applied to concrete chunk lists with distinct
anchors. -/
theorem c3_witness :
    (([(("1." : String).data, ("1. a" : String).data)].map
        (fun c => c.1)).Nodup ∧
     ([(("1." : String).data, ("1. b" : String).data),
       (("2." : String).data, ("2. c" : String).data)].map
        (fun c => c.1)).Nodup) ∧
    (alignByAnchors [("1.".data, "1. a".data)]
        [("1.".data, "1. b".data), ("2.".data, "2. c".data)]).countP
      (fun p => p.1 = some ("1.".data, "1. a".data)) = 1 ∧
    (alignByAnchors [("1.".data, "1. a".data)]
        [("1.".data, "1. b".data), ("2.".data, "2. c".data)]).countP
      (fun p => p.2 = some ("2.".data, "2. c".data)) = 1 :=
  ⟨⟨by decide, by decide⟩,
   (c3_totality [("1.".data, "1. a".data)]
      [("1.".data, "1. b".data), ("2.".data, "2. c".data)]
      (by decide) (by decide)).1 ("1.".data, "1. a".data) (by decide),
   (c3_totality [("1.".data, "1. a".data)]
      [("1.".data, "1. b".data), ("2.".data, "2. c".data)]
      (by decide) (by decide)).2 ("2.".data, "2. c".data) (by decide)⟩

/-- C3 counterexample: with two new chunks sharing the anchor `1.`,
the second one appears in no aligned pair at all — it is dropped, not
collapsed into exactly one pair — refuting totality for duplicate
anchors. -/
theorem c3_counterexample :
    (alignByAnchors [("1.".data, "c".data)]
        [("1.".data, "a".data), ("1.".data, "b".data)]).countP
      (fun p => p.2 = some ("1.".data, "b".data)) = 0 := by
  decide

/-- C6 : identity round-trip of the anchor alignment.  When the
document's chunk anchors are distinct, aligning the chunk list against
itself yields exactly the list of fully matched identical pairs, and
the (spec-modelled) inline character differ emits no Delete or Insert
span on any identical pair.  With duplicated anchors the claim fails
(see the counterexample). -/
theorem c6_identity (cs : List (List Char × List Char))
    (h : (cs.map (fun c => c.1)).Nodup) :
    alignByAnchors cs cs = cs.map (fun c => (some c, some c)) ∧
    ∀ t : List Char,
      (dmpInlineSpans t t).countP (fun s => s.k ≠ DK.eq) = 0 := by
  constructor
  · show (abaGo cs cs []).1 ++
      (cs.filter (fun x => x.1 ∉ (abaGo cs cs []).2)).map
        (fun x => ((none : Option (List Char × List Char)), some x)) = _
    have hfil : cs.filter (fun x => x.1 ∉ (abaGo cs cs []).2) = [] := by
      rw [List.filter_eq_nil]
      intro x hx
      simp only [decide_eq_true_eq, Decidable.not_not]
      rw [abaGo_used_mem]
      exact Or.inr ⟨x, hx, rfl, by rw [lookupAnchor_self h hx]; rfl⟩
    rw [abaGo_pairs cs cs [], hfil, List.map_nil, List.append_nil]
    apply List.map_congr_left
    intro x hx
    rw [lookupAnchor_self h hx]
    rfl
  · intro t
    unfold dmpInlineSpans
    rw [if_pos rfl]
    by_cases h0 : t.isEmpty
    · rw [if_pos h0]
      rfl
    · rw [if_neg h0]
      simp [List.countP_cons]

/-- C6 witness: the identity round-trip applied to a concrete two-chunk
document with distinct anchors. -/
theorem c6_witness :
    (([(("1." : String).data, ("1. a" : String).data),
       (("2." : String).data, ("2. b" : String).data)].map
        (fun c => c.1)).Nodup) ∧
    alignByAnchors
        [("1.".data, "1. a".data), ("2.".data, "2. b".data)]
        [("1.".data, "1. a".data), ("2.".data, "2. b".data)] =
      [(some ("1.".data, "1. a".data), some ("1.".data, "1. a".data)),
       (some ("2.".data, "2. b".data), some ("2.".data, "2. b".data))] ∧
    (dmpInlineSpans "1. a".data "1. a".data).countP
      (fun s => s.k ≠ DK.eq) = 0 :=
  ⟨by decide,
   (c6_identity [("1.".data, "1. a".data), ("2.".data, "2. b".data)]
      (by decide)).1,
   (c6_identity [("1.".data, "1. a".data), ("2.".data, "2. b".data)]
      (by decide)).2 "1. a".data⟩

/-- C6 counterexample: aligning a document with two chunks sharing the
anchor `1.` against an identical copy of itself pairs the second chunk
with the first chunk's body (first-occurrence anchor map), and the
inline diff of that pair emits Delete/Insert spans — refuting the
claim that self-alignment always produces identical matched pairs with
empty diffs. -/
theorem c6_counterexample :
    alignByAnchors [("1.".data, "x".data), ("1.".data, "y".data)]
        [("1.".data, "x".data), ("1.".data, "y".data)] =
      [(some ("1.".data, "x".data), some ("1.".data, "x".data)),
       (some ("1.".data, "y".data), some ("1.".data, "x".data))] ∧
    (dmpInlineSpans "y".data "x".data).countP (fun s => s.k ≠ DK.eq) ≠ 0 :=
  ⟨by decide, by decide⟩
